import Mathlib

/-!
Verification of the boilerplate-generator pipeline in `pages/3_App Gemini.py`
(the JSON-manifest extraction and safe file-materialization pipeline).

Python strings are embedded as `List Char`.  Each Python helper used by the
claims is translated into a Lean function of the same name; auxiliary
functions (`pyStrip`, `splitSlash`, ...) model the Python string methods they
stand for.  Machine-level concerns (actual file descriptors, the subprocess
boundary, the streamlit widget tree) are modelled by explicit state or by
outcome parameters, as noted at each definition.
-/

/-! ### Character constants and classes -/

/-- The character `{` (0x7b). -/
def lbraceC : Char := '\x7b'

/-- The character `}` (0x7d). -/
def rbraceC : Char := '\x7d'

/-- The backtick character (0x60). -/
def bqC : Char := '\x60'

/-- The character `[`. -/
def lbrackC : Char := '['

/-- The character `]`. -/
def rbrackC : Char := ']'

/-- The double-quote character. -/
def dquoteC : Char := '"'

/-- The backslash character. -/
def bslashC : Char := '\\'

/-- Whitespace for Python `str.strip()` / `str.lstrip()` with no argument:
the ASCII whitespace characters (unicode spaces are out of scope for the
paths this program handles). -/
def isPyWs (c : Char) : Bool :=
  c = ' ' || c = '\t' || c = '\n' || c = '\r' || c = '\x0b' || c = '\x0c'

/-- Whitespace for the regex class `\s` (ASCII range). -/
def isReWs (c : Char) : Bool :=
  c = ' ' || c = '\t' || c = '\n' || c = '\r' || c = '\x0b' || c = '\x0c'

/-- Whitespace accepted between tokens by Python `json.loads`
(`json.decoder.WHITESPACE` is `[ \t\n\r]*`). -/
def isJWs (c : Char) : Bool :=
  c = ' ' || c = '\t' || c = '\n' || c = '\r'

/-- Decimal digit test, `[0-9]`. -/
def isDigitC (c : Char) : Bool := '0' ≤ c && c ≤ '9'

/-- Nonzero decimal digit test, `[1-9]`. -/
def isDigit19 (c : Char) : Bool := '1' ≤ c && c ≤ '9'

/-- Word characters for the regex class `\w` (ASCII range: letters, digits,
underscore; the code-fence language tags this program meets are ASCII). -/
def isWordC (c : Char) : Bool :=
  isDigitC c || ('a' ≤ c && c ≤ 'z') || ('A' ≤ c && c ≤ 'Z') || c = '_'

/-! ### Python string helpers -/

/-- Python `str.strip()`: drop leading and trailing whitespace. -/
def pyStrip (l : List Char) : List Char :=
  ((l.dropWhile isPyWs).reverse.dropWhile isPyWs).reverse

/-- Python `str.replace("\\", "/")` (single-character replacement). -/
def replaceBackslash (l : List Char) : List Char :=
  l.map (fun c => if c = bslashC then '/' else c)

/-- Python `re.sub(r"^\.+/", "", p)`: the pattern is anchored at the start,
so at most one replacement happens; `\.+` greedily takes the maximal leading
run of dots, and backtracking to a shorter run cannot help because the next
character would again be a dot rather than `/`.  Hence: if the maximal
leading dot run is nonempty and is followed by `/`, remove the run and the
slash; otherwise the string is unchanged. -/
def subLeadingDotsSlash (l : List Char) : List Char :=
  let dots := l.takeWhile (· = '.')
  let rest := l.dropWhile (· = '.')
  if dots = [] then l
  else
    match rest with
    | r0 :: r => if r0 = '/' then r else l
    | [] => l

/-- Python `"x/y".split("/")`: split on every separator, keeping empty
fields (`"".split("/") = [""]`). -/
def splitSlash : List Char → List (List Char)
  | [] => [[]]
  | c :: rest =>
    if c = '/' then [] :: splitSlash rest
    else
      match splitSlash rest with
      | s :: ss => (c :: s) :: ss
      | [] => [[c]]

/-- Python `"/".join(parts)`. -/
def joinSlash : List (List Char) → List Char
  | [] => []
  | [p] => p
  | p :: ps => p ++ '/' :: joinSlash ps

/-! ### `sanitize_relative_path` (source lines 44-51) -/

/-- Segments dropped by the sanitizer's comprehension:
`part not in ("", ".", "..")`. -/
def isDroppedSeg (part : List Char) : Bool :=
  part = [] || part = ['.'] || part = ['.', '.']

/-- Translation of `sanitize_relative_path` from `pages/3_App Gemini.py`:
strip whitespace, turn backslashes into `/`, apply `re.sub(r"^\.+/", "", p)`,
strip leading slashes, then split on `/`, drop `""`/`"."`/`".."` segments and
rejoin with `/`. -/
def sanitize_relative_path (p : List Char) : List Char :=
  let p1 := replaceBackslash (pyStrip p)
  let p2 := subLeadingDotsSlash p1
  let p3 := p2.dropWhile (· = '/')
  joinSlash ((splitSlash p3).filter (fun part => !isDroppedSeg part))

/-- Repeatedly strip a leading literal `./` (for the spec's reference
algorithm, below). -/
def stripDotSlashes : List Char → List Char
  | '.' :: '/' :: r => stripDotSlashes r
  | l => l

/-- Reference algorithm written from the specification's own words
(section 4.4 of the spec): normalize backslashes to forward slashes, strip
any leading `./` (repeatedly, reading "any" as "any number of"), strip
leading `/`, then split on `/`, drop every segment equal to `""`, `"."` or
`".."`, and rejoin.  Note it mentions no whitespace stripping and strips
only the literal prefix `./`. -/
def spec_sanitize (p : List Char) : List Char :=
  let p1 := replaceBackslash p
  let p2 := stripDotSlashes p1
  let p3 := p2.dropWhile (· = '/')
  joinSlash ((splitSlash p3).filter (fun part => !isDroppedSeg part))

/-- Walk the leading dots of the input; succeed with the remainder only on
seeing `/` right after at least one dot (helper of the amended reference
algorithm, structured differently from `subLeadingDotsSlash` on purpose). -/
def stripDotRunGo : List Char → Option (List Char)
  | [] => none
  | c :: r =>
    if c = '.' then
      match stripDotRunGo r with
      | some r2 => some r2
      | none =>
        match r with
        | r0 :: r2 => if r0 = '/' then some r2 else none
        | [] => none
    else none

/-- Remove `dots ++ "/"` at the front when `dots` is a nonempty dot run
followed by `/`; otherwise leave the string unchanged. -/
def stripDotRun (l : List Char) : List Char :=
  match stripDotRunGo l with
  | some r => r
  | none => l

/-- Amended reference algorithm: the code additionally strips surrounding
whitespace first, and its "strip any leading `./`" step in fact removes one
maximal leading run of one or more dots when that run is followed by a
slash.  Written with its own recursion so the agreement proof is not purely
definitional. -/
def spec_sanitize_amended (p : List Char) : List Char :=
  let p1 := replaceBackslash (pyStrip p)
  let p2 := stripDotRun p1
  let p3 := p2.dropWhile (· = '/')
  joinSlash ((splitSlash p3).filter (fun part => !isDroppedSeg part))

/-! ### The materializer, `write_files_from_manifest` (source lines 86-108)

The filesystem is modelled as an association store from absolute paths
(`base_dir ++ "/" ++ rel`) to file contents; a write either overwrites the
existing entry in place or appends a new one.  `mkdir` calls and the
best-effort `chmod` of the `executable` flag do not change file contents and
are not represented. -/

/-- One manifest file entry, holding the values of `f.get("path", "")`,
`f.get("content", "")` and `f.get("executable", False)`. -/
structure FileEntry where
  path : List Char
  content : List Char
  executable : Bool

/-- The modelled filesystem: an association list from path to content. -/
abbrev FsStore : Type := List (List Char × List Char)

/-- Write (create or overwrite) one file. -/
def storePut : FsStore → List Char → List Char → FsStore
  | [], k, v => [(k, v)]
  | (k', v') :: rest, k, v =>
    if k' = k then (k, v) :: rest else (k', v') :: storePut rest k v

/-- Read one file. -/
def storeGet : FsStore → List Char → Option (List Char)
  | [], _ => none
  | (k', v') :: rest, k => if k' = k then some v' else storeGet rest k

/-- The loop body of `write_files_from_manifest`: sanitize the path, skip
entries whose sanitized path is empty (falsy), otherwise write the content
at `base_dir / rel_path` and record the relative path. -/
def writeFilesGo (base : List Char) : FsStore → List (List Char) → List FileEntry →
    FsStore × List (List Char)
  | st, created, [] => (st, created)
  | st, created, f :: fs =>
    let rel := sanitize_relative_path f.path
    if rel = [] then writeFilesGo base st created fs
    else writeFilesGo base (storePut st (base ++ '/' :: rel) f.content) (created ++ [rel]) fs

/-- Translation of `write_files_from_manifest`: processes `manifest["files"]`
in order against the store rooted at `base_dir`, returning the new store and
the list of created relative paths. -/
def write_files_from_manifest (base : List Char) (st : FsStore) (files : List FileEntry) :
    FsStore × List (List Char) :=
  writeFilesGo base st [] files

/-! ### Lemmas about splitting and joining on `/` -/

theorem splitSlash_ne_nil : ∀ l : List Char, splitSlash l ≠ []
  | [] => by simp [splitSlash]
  | c :: rest => by
    simp only [splitSlash]
    split
    · simp
    · split
      · simp
      · simp

theorem mem_splitSlash_no_slash : ∀ (l : List Char) (part : List Char),
    part ∈ splitSlash l → '/' ∉ part
  | [], part, h => by
    simp [splitSlash] at h
    simp [h]
  | c :: rest, part, h => by
    simp only [splitSlash] at h
    split at h
    · rcases List.mem_cons.mp h with h1 | h1
      · simp [h1]
      · exact mem_splitSlash_no_slash rest part h1
    · rename_i hc
      rcases hs : splitSlash rest with _ | ⟨s, ss⟩
      · exact absurd hs (splitSlash_ne_nil rest)
      · rw [hs] at h
        rcases List.mem_cons.mp h with h1 | h1
        · subst h1
          intro hmem
          rcases List.mem_cons.mp hmem with h2 | h2
          · exact hc h2.symm
          · exact mem_splitSlash_no_slash rest s (by rw [hs]; exact List.mem_cons_self s ss) h2
        · exact mem_splitSlash_no_slash rest part (by rw [hs]; exact List.mem_cons_of_mem s h1)

theorem splitSlash_append_no_slash : ∀ (p r : List Char) (s : List Char) (ss : List (List Char)),
    '/' ∉ p → splitSlash r = s :: ss → splitSlash (p ++ r) = (p ++ s) :: ss
  | [], r, s, ss, _, hr => by simpa using hr
  | c :: p', r, s, ss, hp, hr => by
    have hc : c ≠ '/' := fun h => hp (by simp [h])
    have hp' : '/' ∉ p' := fun h => hp (List.mem_cons_of_mem c h)
    have ih := splitSlash_append_no_slash p' r s ss hp' hr
    show splitSlash (c :: (p' ++ r)) = (c :: (p' ++ s)) :: ss
    simp only [splitSlash, ih, if_neg hc]

theorem splitSlash_joinSlash : ∀ parts : List (List Char), parts ≠ [] →
    (∀ part ∈ parts, '/' ∉ part) → splitSlash (joinSlash parts) = parts
  | [], h, _ => absurd rfl h
  | [p], _, hmem => by
    have hp : '/' ∉ p := hmem p (by simp)
    simp only [joinSlash]
    have := splitSlash_append_no_slash p [] [] [] hp (by simp [splitSlash])
    simpa using this
  | p :: q :: ps, _, hmem => by
    have hp : '/' ∉ p := hmem p (by simp)
    have ih : splitSlash (joinSlash (q :: ps)) = q :: ps :=
      splitSlash_joinSlash (q :: ps) (by simp)
        (fun part h => hmem part (List.mem_cons_of_mem p h))
    have hr : splitSlash ('/' :: joinSlash (q :: ps)) = [] :: q :: ps := by
      simp [splitSlash, ih]
    have := splitSlash_append_no_slash p ('/' :: joinSlash (q :: ps)) [] (q :: ps) hp hr
    simpa [joinSlash] using this

theorem joinSlash_head : ∀ (q : List Char) (qs : List (List Char)), q ≠ [] →
    (joinSlash (q :: qs)).head? = q.head?
  | [], _, h => absurd rfl h
  | c :: q', [], _ => by simp [joinSlash]
  | c :: q', r :: qs, _ => by simp [joinSlash]

/-! ### Lemmas about the modelled store -/

theorem storeGet_put_self : ∀ (st : FsStore) (k v : List Char),
    storeGet (storePut st k v) k = some v
  | [], k, v => by simp [storePut, storeGet]
  | (k', v') :: rest, k, v => by
    simp only [storePut]
    split
    · simp [storeGet]
    · simp only [storeGet]
      rename_i hne
      rw [if_neg hne]
      exact storeGet_put_self rest k v

theorem storeGet_put_other : ∀ (st : FsStore) (k v k' : List Char), k' ≠ k →
    storeGet (storePut st k v) k' = storeGet st k'
  | [], k, v, k', h => by
    simp only [storePut, storeGet]
    rw [if_neg (fun hh => h hh.symm)]
  | (k0, v0) :: rest, k, v, k', h => by
    by_cases hk : k0 = k
    · subst hk
      simp only [storePut, if_pos rfl, storeGet]
      rw [if_neg (fun hh => h hh.symm), if_neg (fun hh => h hh.symm)]
    · simp only [storePut, if_neg hk, storeGet]
      by_cases hk' : k0 = k'
      · rw [if_pos hk', if_pos hk']
      · rw [if_neg hk', if_neg hk']
        exact storeGet_put_other rest k v k' h

theorem writeFilesGo_touched (base : List Char) :
    ∀ (files : List FileEntry) (st : FsStore) (created : List (List Char)) (k : List Char),
    storeGet (writeFilesGo base st created files).1 k ≠ storeGet st k →
    ∃ f ∈ files, k = base ++ '/' :: sanitize_relative_path f.path ∧
      sanitize_relative_path f.path ≠ []
  | [], st, created, k, h => by simp [writeFilesGo] at h
  | f :: fs, st, created, k, h => by
    simp only [writeFilesGo] at h
    split at h
    · rcases writeFilesGo_touched base fs st created k h with ⟨f', hf', hk⟩
      exact ⟨f', List.mem_cons_of_mem f hf', hk⟩
    · rename_i hrel
      by_cases hkey : k = base ++ '/' :: sanitize_relative_path f.path
      · exact ⟨f, List.mem_cons_self f fs, hkey, hrel⟩
      · have hsame : storeGet (storePut st (base ++ '/' :: sanitize_relative_path f.path)
            f.content) k = storeGet st k :=
          storeGet_put_other _ _ _ _ hkey
        rw [← hsame] at h
        rcases writeFilesGo_touched base fs _ _ k h with ⟨f', hf', hk⟩
        exact ⟨f', List.mem_cons_of_mem f hf', hk⟩

/-! ### Claim C1 -/

theorem join_filter_segments_ok (xs : List (List Char))
    (hx : ∀ part ∈ xs, '/' ∉ part) :
    ['.', '.'] ∉ splitSlash (joinSlash (xs.filter (fun part => !isDroppedSeg part))) ∧
    (joinSlash (xs.filter (fun part => !isDroppedSeg part))).head? ≠ some '/' := by
  have hmem : ∀ part ∈ xs.filter (fun part => !isDroppedSeg part),
      '/' ∉ part ∧ isDroppedSeg part = false := by
    intro part hpart
    rcases List.mem_filter.mp hpart with ⟨hin, hkeep⟩
    exact ⟨hx part hin, by simpa using hkeep⟩
  rcases hps : xs.filter (fun part => !isDroppedSeg part) with _ | ⟨q, qs⟩
  · simp [joinSlash, splitSlash]
  · rw [hps] at hmem
    have hsplit : splitSlash (joinSlash (q :: qs)) = q :: qs :=
      splitSlash_joinSlash _ (by simp) (fun part h => (hmem part h).1)
    have hqmem := hmem q (List.mem_cons_self q qs)
    have hqne : q ≠ [] := by
      intro h
      rw [h] at hqmem
      simp [isDroppedSeg] at hqmem
    constructor
    · rw [hsplit]
      intro hdd
      have := (hmem _ hdd).2
      simp [isDroppedSeg] at this
    · rw [joinSlash_head q qs hqne]
      rcases q with _ | ⟨c, q'⟩
      · exact absurd rfl hqne
      · simp only [List.head?]
        intro hcontra
        have hc : c = '/' := by simpa using hcontra
        exact hqmem.1 (by simp [hc])

theorem sanitize_segments_ok (p : List Char) :
    ['.', '.'] ∉ splitSlash (sanitize_relative_path p) ∧
    (sanitize_relative_path p).head? ≠ some '/' :=
  join_filter_segments_ok
    (splitSlash ((subLeadingDotsSlash (replaceBackslash (pyStrip p))).dropWhile (· = '/')))
    (fun part h => mem_splitSlash_no_slash _ part h)

/-- Claim C1: every sanitized path is free of `..` segments and of a leading
slash, and consequently every file the materializer writes lives at
`base_dir / rel` for a nonempty such `rel` — no write escapes the base
directory. -/
theorem c1_sanitize_confines :
    (∀ p : List Char,
        ['.', '.'] ∉ splitSlash (sanitize_relative_path p) ∧
        (sanitize_relative_path p).head? ≠ some '/') ∧
    (∀ (base : List Char) (st : FsStore) (files : List FileEntry) (k : List Char),
        storeGet (write_files_from_manifest base st files).1 k ≠ storeGet st k →
        ∃ rel, k = base ++ '/' :: rel ∧ rel ≠ [] ∧
          ['.', '.'] ∉ splitSlash rel ∧ rel.head? ≠ some '/') := by
  refine ⟨sanitize_segments_ok, ?_⟩
  intro base st files k h
  rcases writeFilesGo_touched base files st [] k h with ⟨f, _, hk, hne⟩
  exact ⟨sanitize_relative_path f.path, hk, hne,
    (sanitize_segments_ok f.path).1, (sanitize_segments_ok f.path).2⟩

/-- Witness for C1 at a concrete traversal attempt: writing the manifest
entry `{"path": "../etc/passwd"}` touches only the in-base path
`b/etc/passwd`. -/
theorem c1_witness :
    ∃ rel, "b".toList ++ '/' :: "etc/passwd".toList = "b".toList ++ '/' :: rel ∧
      rel ≠ [] ∧ ['.', '.'] ∉ splitSlash rel ∧ rel.head? ≠ some '/' := by
  have h := c1_sanitize_confines.2 "b".toList []
    [⟨"../etc/passwd".toList, "x".toList, false⟩] ("b".toList ++ '/' :: "etc/passwd".toList)
    (by decide)
  exact h

/-! ### Claim C4 -/

theorem stripDotRunGo_spec : ∀ l : List Char,
    stripDotRunGo l =
      (if l.takeWhile (· = '.') = [] then none
       else
        match l.dropWhile (· = '.') with
        | r0 :: r => if r0 = '/' then some r else none
        | [] => none)
  | [] => by simp [stripDotRunGo]
  | c :: r => by
    by_cases hc : c = '.'
    · subst hc
      have ih := stripDotRunGo_spec r
      have ht : ('.' :: r).takeWhile (· = '.') = '.' :: r.takeWhile (· = '.') := by
        simp [List.takeWhile_cons]
      have hd : ('.' :: r).dropWhile (· = '.') = r.dropWhile (· = '.') := by
        simp [List.dropWhile_cons]
      simp only [stripDotRunGo, if_pos rfl, ih, ht, hd]
      rw [if_neg (by simp : ¬('.' :: r.takeWhile (· = '.')) = [])]
      by_cases hr : r.takeWhile (· = '.') = []
      · rw [if_pos hr]
        have hdr : r.dropWhile (· = '.') = r := by
          rcases r with _ | ⟨c2, r2⟩
          · rfl
          · have hne : ¬ c2 = '.' := by
              intro h
              subst h
              simp [List.takeWhile_cons] at hr
            simp [List.dropWhile_cons, hne]
        rw [hdr]
        rcases r with _ | ⟨c2, r2⟩ <;> simp
      · rw [if_neg hr]
        rcases r with _ | ⟨c2, r2⟩
        · simp at hr
        · have hc2 : c2 = '.' := by
            by_contra hne
            simp [List.takeWhile_cons, hne] at hr
          subst hc2
          rcases hdw : ('.' :: r2).dropWhile (· = '.') with _ | ⟨c3, r3⟩
          · simp
          · by_cases hc3 : c3 = '/'
            · subst hc3
              simp
            · simp [hc3]
    · simp only [stripDotRunGo, if_neg hc]
      rw [if_pos]
      simp [List.takeWhile_cons, hc]

theorem stripDotRun_eq_subLeadingDotsSlash (l : List Char) :
    stripDotRun l = subLeadingDotsSlash l := by
  unfold stripDotRun subLeadingDotsSlash
  rw [stripDotRunGo_spec]
  by_cases h : l.takeWhile (· = '.') = []
  · rw [if_pos h, if_pos h]
  · rw [if_neg h, if_neg h]
    rcases hdw : l.dropWhile (· = '.') with _ | ⟨r0, r⟩
    · rfl
    · by_cases h0 : r0 = '/'
      · simp [h0]
      · simp [h0]

/-- Counterexample for C4: the code and the spec's reference algorithm
disagree — the code strips surrounding whitespace (`" a"`) and removes a
leading run of several dots before a slash (`".../x"`), while the spec's
algorithm does neither. -/
theorem c4_counterexample :
    sanitize_relative_path " a".toList ≠ spec_sanitize " a".toList ∧
    sanitize_relative_path ".../x".toList ≠ spec_sanitize ".../x".toList := by
  constructor <;> decide

/-- Claim C4 (amended): `sanitize_relative_path` equals the spec's reference
algorithm once that algorithm is amended to (a) strip surrounding whitespace
first and (b) read "strip any leading `./`" as removing one maximal leading
run of one or more dots followed by a slash. -/
theorem c4_sanitize_matches_amended_reference (p : List Char) :
    sanitize_relative_path p = spec_sanitize_amended p := by
  simp only [sanitize_relative_path, spec_sanitize_amended,
    stripDotRun_eq_subLeadingDotsSlash]

/-! ### Claim C6 -/

/-- Claim C6: for a manifest with two entries whose paths sanitize to the
same nonempty relative path but whose contents differ, the materializer
writes exactly one file at that path, holding the second entry's content
(last write wins); no other path is touched. -/
theorem c6_last_write_wins (base : List Char) (st : FsStore)
    (p1 c1 p2 c2 : List Char) (e1 e2 : Bool)
    (hsame : sanitize_relative_path p1 = sanitize_relative_path p2)
    (hne : sanitize_relative_path p1 ≠ [])
    (hdiff : c1 ≠ c2) :
    storeGet (write_files_from_manifest base st [⟨p1, c1, e1⟩, ⟨p2, c2, e2⟩]).1
        (base ++ '/' :: sanitize_relative_path p1) = some c2 ∧
    (write_files_from_manifest base st [⟨p1, c1, e1⟩, ⟨p2, c2, e2⟩]).2 =
        [sanitize_relative_path p1, sanitize_relative_path p2] ∧
    (∀ k, k ≠ base ++ '/' :: sanitize_relative_path p1 →
      storeGet (write_files_from_manifest base st [⟨p1, c1, e1⟩, ⟨p2, c2, e2⟩]).1 k =
        storeGet st k) := by
  have hne2 : sanitize_relative_path p2 ≠ [] := hsame ▸ hne
  have hout : write_files_from_manifest base st [⟨p1, c1, e1⟩, ⟨p2, c2, e2⟩] =
      (storePut (storePut st (base ++ '/' :: sanitize_relative_path p1) c1)
        (base ++ '/' :: sanitize_relative_path p1) c2,
       [sanitize_relative_path p1, sanitize_relative_path p2]) := by
    unfold write_files_from_manifest writeFilesGo
    rw [if_neg hne]
    unfold writeFilesGo
    rw [if_neg hne2]
    unfold writeFilesGo
    rw [← hsame]
    simp
  rw [hout]
  refine ⟨storeGet_put_self _ _ _, rfl, ?_⟩
  intro k hk
  rw [storeGet_put_other _ _ _ _ hk, storeGet_put_other _ _ _ _ hk]

/-- Witness for C6 at a concrete manifest: paths `x` and `./x` sanitize to
the same path `x`; after materialization the file `b/x` holds `2`. -/
theorem c6_witness :
    storeGet (write_files_from_manifest "b".toList []
        [⟨"x".toList, "1".toList, false⟩, ⟨"./x".toList, "2".toList, false⟩]).1
        ("b".toList ++ '/' :: sanitize_relative_path "x".toList) = some "2".toList ∧
    (write_files_from_manifest "b".toList []
        [⟨"x".toList, "1".toList, false⟩, ⟨"./x".toList, "2".toList, false⟩]).2 =
        [sanitize_relative_path "x".toList, sanitize_relative_path "./x".toList] ∧
    (∀ k, k ≠ "b".toList ++ '/' :: sanitize_relative_path "x".toList →
      storeGet (write_files_from_manifest "b".toList []
          [⟨"x".toList, "1".toList, false⟩, ⟨"./x".toList, "2".toList, false⟩]).1 k =
        storeGet [] k) :=
  c6_last_write_wins "b".toList [] "x".toList "1".toList "./x".toList "2".toList false false
    (by decide) (by decide) (by decide)

/-! ### JSON values

`extract_json_from_text` feeds candidate spans to Python `json.loads`.  We
model parsed JSON values with `JsonVal` and `json.loads` with `jsonLoads`
below.  Numbers are kept as their source lexemes (Python would convert them
to `int`/`float`; nothing in the pipeline depends on numeric magnitude).
Object members keep insertion order with last-value-wins on duplicate keys,
mirroring how Python builds the `dict`.  Lone-surrogate `\u` escapes (which
CPython tolerates inside strings) are not representable in Lean `Char` and
are rejected; no claim exercises them. -/

inductive JsonVal where
  | null : JsonVal
  | boolean : Bool → JsonVal
  | num : List Char → JsonVal
  | str : List Char → JsonVal
  | arr : List JsonVal → JsonVal
  | obj : List (List Char × JsonVal) → JsonVal
deriving Repr

/-- The characters of `"null"`. -/
def nullL : List Char := "null".toList

/-- The characters of `"true"`. -/
def trueL : List Char := "true".toList

/-- The characters of `"false"`. -/
def falseL : List Char := "false".toList

/-- The characters of `"NaN"` (accepted by `json.loads`). -/
def nanL : List Char := "NaN".toList

/-- The characters of `"Infinity"` (accepted by `json.loads`). -/
def infL : List Char := "Infinity".toList

/-- The characters of `"-Infinity"` (accepted by `json.loads`). -/
def ninfL : List Char := "-Infinity".toList

/-- Literal-prefix test: does `s` start with `pat`? -/
def litPre : List Char → List Char → Bool
  | [], _ => true
  | p :: pt, c :: rest => if c = p then litPre pt rest else false
  | _ :: _, [] => false

/-- One character of a lowercase ASCII pattern matched under
`re.IGNORECASE`: the character itself or its uppercase ASCII counterpart.
(Unicode case folds such as the long s are outside this model.) -/
def ciMatch (c p : Char) : Bool :=
  c = p || (p.toNat = c.toNat + 32 && 65 ≤ c.toNat && c.toNat ≤ 90)

/-- Case-insensitive prefix test (the pattern is given in lowercase);
models `re.IGNORECASE` over the ASCII pattern `` ```json ``. -/
def ciPre : List Char → List Char → Bool
  | [], _ => true
  | p :: pt, c :: rest => if ciMatch c p then ciPre pt rest else false
  | _ :: _, [] => false

/-- Skip `json.decoder` whitespace. -/
def skipJWs (s : List Char) : List Char := s.dropWhile isJWs

/-- Hexadecimal digit value. -/
def hexVal (c : Char) : Option Nat :=
  let n := c.toNat
  if 48 ≤ n && n ≤ 57 then some (n - 48)
  else if 97 ≤ n && n ≤ 102 then some (n - 87)
  else if 65 ≤ n && n ≤ 70 then some (n - 55)
  else none

/-- Value of a four-digit hex escape. -/
def hex4 (a b c d : Char) : Option Nat :=
  match hexVal a, hexVal b, hexVal c, hexVal d with
  | some va, some vb, some vc, some vd => some (((va * 16 + vb) * 16 + vc) * 16 + vd)
  | _, _, _, _ => none

/-- Single-character JSON escapes, as in `json.decoder.BACKSLASH`. -/
def unescapeChar (c : Char) : Option Char :=
  if c = dquoteC then some dquoteC
  else if c = bslashC then some bslashC
  else if c = '/' then some '/'
  else if c = 'b' then some '\x08'
  else if c = 'f' then some '\x0c'
  else if c = 'n' then some '\n'
  else if c = 'r' then some '\r'
  else if c = 't' then some '\t'
  else none

/-- Parse the body of a JSON string after the opening quote, as Python
`json.decoder.py_scanstring` with `strict=True` does: a raw control
character (below 0x20) is an error, escapes are decoded, and the scan stops
at the closing quote.  Returns the decoded characters and the rest. -/
def parseStringRest : List Char → Option (List Char × List Char)
  | [] => none
  | c :: r =>
    if c = dquoteC then some ([], r)
    else if c = bslashC then
      match r with
      | [] => none
      | e :: r2 =>
        if e = 'u' then
          match r2 with
          | a :: b :: c3 :: d :: r3 =>
            match hex4 a b c3 d with
            | some n =>
              if n < 0xd800 || 0xdfff < n then
                match parseStringRest r3 with
                | some (cs, rest) => some (Char.ofNat n :: cs, rest)
                | none => none
              else none
            | none => none
          | _ => none
        else
          match unescapeChar e with
          | some ch =>
            match parseStringRest r2 with
            | some (cs, rest) => some (ch :: cs, rest)
            | none => none
          | none => none
    else if c.toNat < 32 then none
    else
      match parseStringRest r with
      | some (cs, rest) => some (c :: cs, rest)
      | none => none

/-! #### Number lexing, per `json.scanner.NUMBER_RE`:
`(-?(?:0|[1-9]\d*))(\.\d+)?([eE][-+]?\d+)?`. -/

/-- Optional leading minus. -/
def lexSign : List Char → List Char × List Char
  | c :: r => if c = '-' then ([c], r) else ([], c :: r)
  | [] => ([], [])

/-- Integer part: `0` alone, or a nonzero digit followed by digits. -/
def lexIntPart : List Char → Option (List Char × List Char)
  | [] => none
  | c :: r =>
    if c = '0' then some ([c], r)
    else if isDigit19 c then some (c :: r.takeWhile isDigitC, r.dropWhile isDigitC)
    else none

/-- Optional fraction `(\.\d+)?`: consumed only when the dot is followed by
at least one digit. -/
def lexFrac : List Char → List Char × List Char
  | [] => ([], [])
  | c :: r =>
    if c = '.' then
      if (r.takeWhile isDigitC).isEmpty then ([], c :: r)
      else (c :: r.takeWhile isDigitC, r.dropWhile isDigitC)
    else ([], c :: r)

/-- Optional exponent `([eE][-+]?\d+)?`: consumed only when digits follow. -/
def lexExp : List Char → List Char × List Char
  | [] => ([], [])
  | c :: r =>
    if c = 'e' || c = 'E' then
      match r with
      | c2 :: r2 =>
        if c2 = '+' || c2 = '-' then
          if (r2.takeWhile isDigitC).isEmpty then ([], c :: r)
          else (c :: c2 :: r2.takeWhile isDigitC, r2.dropWhile isDigitC)
        else
          if (r.takeWhile isDigitC).isEmpty then ([], c :: r)
          else (c :: r.takeWhile isDigitC, r.dropWhile isDigitC)
      | [] => ([], [c])
    else ([], c :: r)

/-- The number lexeme matched by `NUMBER_RE` at the start of `s`, with the
rest of the input, or `none` when the regex does not match at the start. -/
def lexNumber (s : List Char) : Option (List Char × List Char) :=
  let sg := lexSign s
  match lexIntPart sg.2 with
  | none => none
  | some (ip, s2) =>
    let fr := lexFrac s2
    let ex := lexExp fr.2
    some (sg.1 ++ ip ++ fr.1 ++ ex.1, ex.2)

/-- Update one member, last value wins, position of first occurrence kept —
how a Python `dict` treats a repeated key. -/
def upsertMember : List (List Char × JsonVal) → List Char → JsonVal →
    List (List Char × JsonVal)
  | [], k, v => [(k, v)]
  | (k', v') :: rest, k, v =>
    if k' = k then (k, v) :: rest else (k', v') :: upsertMember rest k v

/-- Collapse duplicate keys as building the Python `dict` would. -/
def dedupKeys (ms : List (List Char × JsonVal)) : List (List Char × JsonVal) :=
  ms.foldl (fun acc kv => upsertMember acc kv.1 kv.2) []

/-! #### The scanner proper (`json.scanner.py_make_scanner`): dispatch on the
first character, in the order string / object / array / `null` / `true` /
`false` / number / `NaN` / `Infinity` / `-Infinity`.  Whitespace is skipped
by callers (after `{`, `[`, `:` and `,`), never at the start of a value.
Recursion is fuelled; every recursive call consumes input, so one unit of
fuel per input character plus one never runs out. -/

mutual

def parseVal : Nat → List Char → Option (JsonVal × List Char)
  | 0, _ => none
  | fuel + 1, s =>
    match s with
    | [] => none
    | c :: r =>
      if c = dquoteC then
        match parseStringRest r with
        | some (cs, r2) => some (.str cs, r2)
        | none => none
      else if c = lbraceC then
        match skipJWs r with
        | [] => none
        | c2 :: r2 =>
          if c2 = rbraceC then some (.obj [], r2)
          else
            match parseMembers fuel (c2 :: r2) with
            | some (ms, r3) => some (.obj (dedupKeys ms), r3)
            | none => none
      else if c = lbrackC then
        match skipJWs r with
        | [] => none
        | c2 :: r2 =>
          if c2 = rbrackC then some (.arr [], r2)
          else
            match parseElems fuel (c2 :: r2) with
            | some (es, r3) => some (.arr es, r3)
            | none => none
      else if litPre nullL s then some (.null, s.drop 4)
      else if litPre trueL s then some (.boolean true, s.drop 4)
      else if litPre falseL s then some (.boolean false, s.drop 5)
      else
        match lexNumber s with
        | some (lex, r2) => some (.num lex, r2)
        | none =>
          if litPre nanL s then some (.num nanL, s.drop 3)
          else if litPre infL s then some (.num infL, s.drop 8)
          else if litPre ninfL s then some (.num ninfL, s.drop 9)
          else none

def parseMembers : Nat → List Char → Option (List (List Char × JsonVal) × List Char)
  | 0, _ => none
  | fuel + 1, s =>
    match s with
    | [] => none
    | c :: r =>
      if c = dquoteC then
        match parseStringRest r with
        | some (key, r1) =>
          match skipJWs r1 with
          | [] => none
          | c2 :: r2 =>
            if c2 = ':' then
              match parseVal fuel (skipJWs r2) with
              | some (v, r3) =>
                match skipJWs r3 with
                | [] => none
                | c4 :: r4 =>
                  if c4 = rbraceC then some ([(key, v)], r4)
                  else if c4 = ',' then
                    match parseMembers fuel (skipJWs r4) with
                    | some (ms, r5) => some ((key, v) :: ms, r5)
                    | none => none
                  else none
              | none => none
            else none
        | none => none
      else none

def parseElems : Nat → List Char → Option (List JsonVal × List Char)
  | 0, _ => none
  | fuel + 1, s =>
    match parseVal fuel s with
    | some (v, r) =>
      match skipJWs r with
      | [] => none
      | c2 :: r2 =>
        if c2 = rbrackC then some ([v], r2)
        else if c2 = ',' then
          match parseElems fuel (skipJWs r2) with
          | some (es, r3) => some (v :: es, r3)
          | none => none
        else none
    | none => none

end

/-- Model of `json.loads`: skip leading whitespace, scan one value, skip
trailing whitespace, and require the input to be exhausted
(`raw_decode` + the "Extra data" check).  `none` stands for a raised
`json.JSONDecodeError`. -/
def jsonLoads (s : List Char) : Option JsonVal :=
  let s1 := skipJWs s
  match parseVal (s1.length + 1) s1 with
  | some (v, r) => if (skipJWs r).isEmpty then some v else none
  | none => none

/-! #### Serialization (for the spec's round-trip property, section 8 of the
spec; the program itself never serializes JSON).  Compact form: no
whitespace, strings emitted verbatim — it agrees with `json.dumps` on
objects whose strings need no escaping, which is what the round-trip
theorem's hypotheses require. -/

mutual

def serV : JsonVal → List Char
  | .null => nullL
  | .boolean true => trueL
  | .boolean false => falseL
  | .num lex => lex
  | .str s => dquoteC :: s ++ [dquoteC]
  | .arr es => lbrackC :: serElems es ++ [rbrackC]
  | .obj ms => lbraceC :: serMembers ms ++ [rbraceC]

def serElems : List JsonVal → List Char
  | [] => []
  | [e] => serV e
  | e :: e2 :: es => serV e ++ ',' :: serElems (e2 :: es)

def serMembers : List (List Char × JsonVal) → List Char
  | [] => []
  | [(k, v)] => dquoteC :: k ++ dquoteC :: ':' :: serV v
  | (k, v) :: m2 :: ms => dquoteC :: k ++ dquoteC :: ':' :: serV v ++ ',' :: serMembers (m2 :: ms)

end

/-- Characters that may appear verbatim inside a serialized JSON string:
not the quote, not the backslash, not a control character. -/
def plainStr (s : List Char) : Bool :=
  s.all (fun c => !(c = dquoteC) && !(c = bslashC) && decide (32 ≤ c.toNat))

/-- Is `lex` a complete number lexeme (`NUMBER_RE` consumes all of it), or
one of the three constants the scanner accepts? -/
def wfNumLex (lex : List Char) : Bool :=
  match lexNumber lex with
  | some (_, rest) => rest.isEmpty
  | none => lex = nanL || lex = infL || lex = ninfL

/-- Does key `k` not occur among the keys of `ms`? -/
def keyFreshIn (k : List Char) (ms : List (List Char × JsonVal)) : Bool :=
  ms.all (fun kv => !(kv.1 = k))

/-! Well-formedness of a `JsonVal` whose serialization parses back: escape-free
strings and keys, complete number lexemes, and duplicate-free keys. -/

mutual

def wfV : JsonVal → Bool
  | .null => true
  | .boolean _ => true
  | .num lex => wfNumLex lex
  | .str s => plainStr s
  | .arr es => wfElems es
  | .obj ms => wfMembers ms

def wfElems : List JsonVal → Bool
  | [] => true
  | e :: es => wfV e && wfElems es

def wfMembers : List (List Char × JsonVal) → Bool
  | [] => true
  | (k, v) :: ms => plainStr k && wfV v && keyFreshIn k ms && wfMembers ms

end

/-! Backtick-freedom of the strings, keys and number lexemes of a value. -/

/-- No backtick among the given characters. -/
def noBq (s : List Char) : Bool := s.all (fun c => !(c = bqC))

mutual

def noBTV : JsonVal → Bool
  | .null => true
  | .boolean _ => true
  | .num lex => noBq lex
  | .str s => noBq s
  | .arr es => noBTElems es
  | .obj ms => noBTMembers ms

def noBTElems : List JsonVal → Bool
  | [] => true
  | e :: es => noBTV e && noBTElems es

def noBTMembers : List (List Char × JsonVal) → Bool
  | [] => true
  | (k, v) :: ms => noBq k && noBTV v && noBTMembers ms

end

/-! ### The three extraction tiers of `extract_json_from_text`
(source lines 53-84)

Tier 1 is `re.search(r"```json\s*(\{[\s\S]*?\})\s*```", text, re.IGNORECASE)`,
tier 2 is `re.search(r"```[\w]*\s*(\{[\s\S]*?\})\s*```", text)`, tier 3 takes
`text[text.find("{") : text.rfind("}") + 1]`.

The regex semantics unfold deterministically: `re.search` takes the leftmost
matching start position; after the literal fence, greedy `\s*` (and `[\w]*`
for tier 2) must stop exactly at its maximal run, since a shorter run leaves
a character of the same class where `\{` (or `\s*`) would have to match; the
lazy group `(\{[\s\S]*?\})` then ends at the first `}` that is followed by
optional whitespace and three backticks — and that trailing `\s*` likewise
must be the maximal whitespace run, backticks not being whitespace. -/

/-- The fence `` ``` `` as characters. -/
def fenceL : List Char := "\x60\x60\x60".toList

/-- The tagged fence `` ```json `` as characters (lowercase, for `ciPre`). -/
def fenceJsonL : List Char := "\x60\x60\x60json".toList

/-- Does a closing fence follow, after optional whitespace (`\s*` + `` ``` ``)? -/
def fenceAfter (r : List Char) : Bool := litPre fenceL (r.dropWhile isReWs)

/-- Lazy capture: scan for the first `}` after which a closing fence
follows; return everything up to and including that `}`. -/
def findClose : List Char → Option (List Char)
  | [] => none
  | c :: r =>
    if c = rbraceC then
      if fenceAfter r then some [c]
      else
        match findClose r with
        | some cap => some (c :: cap)
        | none => none
    else
      match findClose r with
      | some cap => some (c :: cap)
      | none => none

/-- Tier-1 match attempt at this position: case-insensitive `` ```json ``,
maximal `\s*`, then a lazily captured `{...}` closed by `\s*` + `` ``` ``. -/
def tier1At (s : List Char) : Option (List Char) :=
  if ciPre fenceJsonL s then
    match (s.drop 7).dropWhile isReWs with
    | c :: r => if c = lbraceC then findClose (c :: r) else none
    | [] => none
  else none

/-- Leftmost tier-1 match in the text. -/
def searchTier1 : List Char → Option (List Char)
  | [] => none
  | c :: r =>
    match tier1At (c :: r) with
    | some cap => some cap
    | none => searchTier1 r

/-- Tier-2 match attempt at this position: `` ``` ``, maximal `[\w]*`,
maximal `\s*`, then the same lazily captured `{...}`. -/
def tier2At (s : List Char) : Option (List Char) :=
  if litPre fenceL s then
    match ((s.drop 3).dropWhile isWordC).dropWhile isReWs with
    | c :: r => if c = lbraceC then findClose (c :: r) else none
    | [] => none
  else none

/-- Leftmost tier-2 match in the text. -/
def searchTier2 : List Char → Option (List Char)
  | [] => none
  | c :: r =>
    match tier2At (c :: r) with
    | some cap => some cap
    | none => searchTier2 r

/-- Tier 3: the span from the first `{` to the last `}`, provided both
exist and the `}` comes strictly later (`end > start`). -/
def tier3Slice (t : List Char) : Option (List Char) :=
  match t.findIdx? (· = lbraceC), t.reverse.findIdx? (· = rbraceC) with
  | some i, some jr =>
    let j := t.length - 1 - jr
    if i < j then some ((t.take (j + 1)).drop i) else none
  | _, _ => none

/-- Failure modes of `extract_json_from_text` (both are `ValueError`s in
Python: `json.JSONDecodeError` from a failed `json.loads`, and the explicit
`raise ValueError(...)` when no tier locates a span). -/
inductive ExtractErr where
  | decodeError
  | noJson
deriving DecidableEq, Repr

/-- Translation of `extract_json_from_text`: try tier 1, then tier 2, then
tier 3; the first tier whose pattern matches has its captured span handed to
`json.loads`, whose failure propagates — there is no fall-through to later
tiers after a located span fails to parse. -/
def extract_json_from_text (text : List Char) : Except ExtractErr JsonVal :=
  match searchTier1 text with
  | some raw =>
    match jsonLoads raw with
    | some v => .ok v
    | none => .error .decodeError
  | none =>
    match searchTier2 text with
    | some raw =>
      match jsonLoads raw with
      | some v => .ok v
      | none => .error .decodeError
    | none =>
      match tier3Slice text with
      | some raw =>
        match jsonLoads raw with
        | some v => .ok v
        | none => .error .decodeError
      | none => .error .noJson

/-- The span the first pattern-matching tier locates, if any. -/
def firstSpan (text : List Char) : Option (List Char) :=
  match searchTier1 text with
  | some raw => some raw
  | none =>
    match searchTier2 text with
    | some raw => some raw
    | none => tier3Slice text

/-! ### Claims C10 and C2 -/

theorem mem_of_mem_dropWhileCh {p : Char → Bool} :
    ∀ {l : List Char} {a : Char}, a ∈ l.dropWhile p → a ∈ l := by
  intro l
  induction l with
  | nil => intro a h; simpa using h
  | cons c r ih =>
    intro a h
    by_cases hc : p c = true
    · rw [List.dropWhile_cons, if_pos hc] at h
      exact List.mem_cons_of_mem c (ih h)
    · rw [List.dropWhile_cons, if_neg hc] at h
      exact h

theorem tier1At_none {s : List Char} (h : lbraceC ∉ s) : tier1At s = none := by
  unfold tier1At
  by_cases hci : ciPre fenceJsonL s = true
  · rw [if_pos hci]
    rcases hd : (s.drop 7).dropWhile isReWs with _ | ⟨c, r⟩
    · rfl
    · have hc : c ∈ s := by
        have h1 : c ∈ (s.drop 7).dropWhile isReWs := by
          rw [hd]; exact List.mem_cons_self _ _
        exact List.mem_of_mem_drop (mem_of_mem_dropWhileCh h1)
      show (if c = lbraceC then findClose (c :: r) else none) = none
      rw [if_neg (fun hceq : c = lbraceC => h (hceq ▸ hc))]
  · rw [if_neg hci]

theorem tier2At_none {s : List Char} (h : lbraceC ∉ s) : tier2At s = none := by
  unfold tier2At
  by_cases hfe : litPre fenceL s = true
  · rw [if_pos hfe]
    rcases hd : ((s.drop 3).dropWhile isWordC).dropWhile isReWs with _ | ⟨c, r⟩
    · rfl
    · have hc : c ∈ s := by
        have h1 : c ∈ ((s.drop 3).dropWhile isWordC).dropWhile isReWs := by
          rw [hd]; exact List.mem_cons_self _ _
        exact List.mem_of_mem_drop (mem_of_mem_dropWhileCh (mem_of_mem_dropWhileCh h1))
      show (if c = lbraceC then findClose (c :: r) else none) = none
      rw [if_neg (fun hceq : c = lbraceC => h (hceq ▸ hc))]
  · rw [if_neg hfe]

theorem searchTier1_none : ∀ {t : List Char}, lbraceC ∉ t → searchTier1 t = none
  | [], _ => rfl
  | c :: r, h => by
    simp only [searchTier1, tier1At_none h]
    exact searchTier1_none (fun hm => h (List.mem_cons_of_mem c hm))

theorem searchTier2_none : ∀ {t : List Char}, lbraceC ∉ t → searchTier2 t = none
  | [], _ => rfl
  | c :: r, h => by
    simp only [searchTier2, tier2At_none h]
    exact searchTier2_none (fun hm => h (List.mem_cons_of_mem c hm))

theorem tier3Slice_none {t : List Char} (h : lbraceC ∉ t) : tier3Slice t = none := by
  unfold tier3Slice
  have hfi : t.findIdx? (· = lbraceC) = none := by
    rw [List.findIdx?_eq_none_iff]
    intro x hx
    by_contra hb
    simp only [decide_eq_true_eq] at *
    rw [Bool.not_eq_false, decide_eq_true_eq] at hb
    exact h (hb ▸ hx)
  rw [hfi]

/-- Claim C10: all three extraction tiers require a `{...}` span, so any
text containing no `{` at all — in particular text whose only JSON payload
is a fenced top-level array — fails with the final no-JSON `ValueError`
rather than returning the array. -/
theorem c10_array_only_fails (text : List Char) (h : lbraceC ∉ text) :
    extract_json_from_text text = .error .noJson := by
  unfold extract_json_from_text
  rw [searchTier1_none h, searchTier2_none h, tier3Slice_none h]

/-- Witness for C10: a fenced `json` block holding only the array `[1,2]`
is rejected with the no-JSON error. -/
theorem c10_witness :
    extract_json_from_text "\x60\x60\x60json\n[1,2]\n\x60\x60\x60".toList = .error .noJson :=
  c10_array_only_fails _ (by decide)

/-- Counterexample for C2: on the text `{"a": "```json {x:} ```"}` the
tier-1 regex matches (capturing the invalid span `{x:}`), so the function
raises `json.JSONDecodeError` — even though strategy 3 (first `{` to last
`}`, here the whole text) yields syntactically valid JSON.  Failure is
therefore not equivalent to "no strategy yields valid JSON". -/
theorem c2_counterexample :
    extract_json_from_text "\x7b\"a\": \"\x60\x60\x60json \x7bx:\x7d \x60\x60\x60\"\x7d".toList
      = .error .decodeError ∧
    tier3Slice "\x7b\"a\": \"\x60\x60\x60json \x7bx:\x7d \x60\x60\x60\"\x7d".toList
      = some "\x7b\"a\": \"\x60\x60\x60json \x7bx:\x7d \x60\x60\x60\"\x7d".toList ∧
    jsonLoads "\x7b\"a\": \"\x60\x60\x60json \x7bx:\x7d \x60\x60\x60\"\x7d".toList
      = some (.obj [("a".toList, .str "\x60\x60\x60json \x7bx:\x7d \x60\x60\x60".toList)]) :=
  ⟨rfl, rfl, rfl⟩

/-- Claim C2 (amended): `extract_json_from_text` fails (with a `ValueError`)
iff either no strategy's pattern locates a candidate span, or the first
strategy (in tier order) whose pattern matches captured a span that is not
valid JSON — a located span that fails to parse does not fall through to
later strategies. -/
theorem c2_amended_failure_iff (text : List Char) :
    (∃ e, extract_json_from_text text = .error e) ↔
      (firstSpan text = none ∨
        ∃ raw, firstSpan text = some raw ∧ jsonLoads raw = none) := by
  unfold extract_json_from_text firstSpan
  cases h1 : searchTier1 text with
  | some raw =>
    cases hl : jsonLoads raw with
    | some v => simp [hl]
    | none => simp [hl]
  | none =>
    cases h2 : searchTier2 text with
    | some raw =>
      cases hl : jsonLoads raw with
      | some v => simp [hl]
      | none => simp [hl]
    | none =>
      cases h3 : tier3Slice text with
      | some raw =>
        cases hl : jsonLoads raw with
        | some v => simp [hl]
        | none => simp [hl]
      | none => simp

/-! ### Round-trip lemmas: serializing a well-formed value and parsing it
back recovers the value (claim C7).  First, helpers about `takeWhile` /
`dropWhile` across an append, and about the number lexer. -/

/-- Characters that cannot follow a complete number lexeme without
extending it: digits, the dot, and the exponent markers. -/
def numSafe (r : List Char) : Bool :=
  match r with
  | [] => true
  | c :: _ => !(isDigitC c || c = '.' || c = 'e' || c = 'E')

theorem takeDropWhile_app_all {p : Char → Bool} :
    ∀ (t r : List Char), (∀ c ∈ t, p c = true) → (∀ c t', r = c :: t' → p c = false) →
    (t ++ r).takeWhile p = t ∧ (t ++ r).dropWhile p = r
  | [], r, _, hr => by
    cases r with
    | nil => simp
    | cons c t' =>
      refine ⟨?_, ?_⟩
      · simp [List.takeWhile_cons, hr c t' rfl]
      · simp [List.dropWhile_cons, hr c t' rfl]
  | c :: t, r, ht, hr => by
    have hc := ht c (List.mem_cons_self c t)
    have ih := takeDropWhile_app_all t r (fun c' h => ht c' (List.mem_cons_of_mem _ h)) hr
    refine ⟨?_, ?_⟩
    · simp [List.takeWhile_cons, hc, ih.1]
    · simp [List.dropWhile_cons, hc, ih.2]

theorem takeDropWhile_app_stop {p : Char → Bool} :
    ∀ (t r : List Char), t.dropWhile p ≠ [] →
    (t ++ r).takeWhile p = t.takeWhile p ∧ (t ++ r).dropWhile p = t.dropWhile p ++ r
  | [], _, h => absurd rfl h
  | c :: t, r, h => by
    by_cases hc : p c = true
    · have ht : t.dropWhile p ≠ [] := by rwa [List.dropWhile_cons, if_pos hc] at h
      have ih := takeDropWhile_app_stop t r ht
      refine ⟨?_, ?_⟩
      · simp [List.takeWhile_cons, hc, ih.1]
      · rw [List.cons_append, List.dropWhile_cons, if_pos hc, ih.2,
          List.dropWhile_cons, if_pos hc]
    · refine ⟨?_, ?_⟩
      · simp [List.takeWhile_cons, hc]
      · simp [List.dropWhile_cons, hc]

theorem litPre_self_append : ∀ (pat rest : List Char), litPre pat (pat ++ rest) = true
  | [], _ => rfl
  | p :: pt, rest => by simp [litPre, litPre_self_append pt rest]

/-- A nonempty `numSafe` tail starts with a non-digit. -/
theorem numSafe_head_not_digit {c : Char} {t : List Char}
    (h : numSafe (c :: t) = true) : isDigitC c = false := by
  simp only [numSafe, Bool.not_eq_eq_eq_not, Bool.not_true, Bool.or_eq_false_iff] at h
  exact h.1.1.1

theorem numSafe_head_not_dot {c : Char} {t : List Char}
    (h : numSafe (c :: t) = true) : (c = '.') = False := by
  simp only [numSafe, Bool.not_eq_eq_eq_not, Bool.not_true, Bool.or_eq_false_iff] at h
  simpa using h.1.1.2

theorem numSafe_head_not_exp {c : Char} {t : List Char}
    (h : numSafe (c :: t) = true) : (c = 'e') = False ∧ (c = 'E') = False := by
  simp only [numSafe, Bool.not_eq_eq_eq_not, Bool.not_true, Bool.or_eq_false_iff] at h
  exact ⟨by simpa using h.1.2, by simpa using h.2⟩

theorem numSafe_digit_cond {r : List Char} (h : numSafe r = true) :
    ∀ c t', r = c :: t' → isDigitC c = false := by
  intro c t' hr
  subst hr
  exact numSafe_head_not_digit h

theorem lexFrac_concat : ∀ s : List Char, (lexFrac s).1 ++ (lexFrac s).2 = s
  | [] => rfl
  | c :: r => by
    by_cases hc : c = '.'
    · subst hc
      by_cases hemp : (r.takeWhile isDigitC).isEmpty = true
      · simp [lexFrac, hemp]
      · simp only [lexFrac, if_pos rfl, hemp]
        simp [List.takeWhile_append_dropWhile]
    · simp [lexFrac, hc]

theorem lexExp_concat : ∀ s : List Char, (lexExp s).1 ++ (lexExp s).2 = s
  | [] => rfl
  | c :: r => by
    by_cases hc : (c = 'e' || c = 'E') = true
    · rcases r with _ | ⟨c2, r2⟩
      · simp [lexExp, hc]
      · by_cases hs : (c2 = '+' || c2 = '-') = true
        · by_cases hemp : (r2.takeWhile isDigitC).isEmpty = true
          · simp [lexExp, hc, hs, hemp]
          · simp only [lexExp, hc, if_pos rfl, hs, hemp]
            simp [List.takeWhile_append_dropWhile]
        · by_cases hemp : ((c2 :: r2).takeWhile isDigitC).isEmpty = true
          · simp [lexExp, hc, hs, hemp]
          · simp only [lexExp, hc, if_pos rfl, hs, hemp]
            simp [List.takeWhile_append_dropWhile]
    · simp [lexExp, hc]

theorem digit19_digit {c : Char} (h : isDigit19 c = true) : isDigitC c = true := by
  simp only [isDigit19, Bool.and_eq_true, decide_eq_true_eq] at h
  simp only [isDigitC, Bool.and_eq_true, decide_eq_true_eq]
  exact ⟨le_trans (by decide) h.1, h.2⟩

theorem lexIntPart_concat : ∀ {s ip s2 : List Char}, lexIntPart s = some (ip, s2) →
    ip ++ s2 = s ∧ ∃ c t, ip = c :: t ∧ isDigitC c = true := by
  intro s ip s2 h
  rcases s with _ | ⟨c, r⟩
  · exact absurd h (by simp [lexIntPart])
  · by_cases hc0 : c = '0'
    · subst hc0
      rw [show lexIntPart ('0' :: r) = some (['0'], r) from by simp [lexIntPart]] at h
      injection h with h
      injection h with h1 h2
      subst h1
      subst h2
      exact ⟨rfl, '0', [], rfl, by decide⟩
    · by_cases hc19 : isDigit19 c = true
      · rw [show lexIntPart (c :: r) =
            some (c :: r.takeWhile isDigitC, r.dropWhile isDigitC) from by
          simp [lexIntPart, hc0, hc19]] at h
        injection h with h
        injection h with h1 h2
        subst h1
        subst h2
        exact ⟨by simp [List.takeWhile_append_dropWhile], c, _, rfl, digit19_digit hc19⟩
      · exact absurd h (by simp [lexIntPart, hc0, hc19])

theorem lexNumber_parts {s lex rest : List Char} (h : lexNumber s = some (lex, rest)) :
    lex ++ rest = s ∧ ∃ c t, lex = c :: t ∧ (c = '-' ∨ isDigitC c = true) := by
  have hm : (match lexIntPart (lexSign s).2 with
      | none => none
      | some (ip, s2) =>
        some ((lexSign s).1 ++ ip ++ (lexFrac s2).1 ++ (lexExp (lexFrac s2).2).1,
          (lexExp (lexFrac s2).2).2)) = some (lex, rest) := h
  clear h
  rcases hip : lexIntPart (lexSign s).2 with _ | ⟨ip, s2⟩
  · rw [hip] at hm; exact absurd hm (by simp)
  · rw [hip] at hm
    simp only [Option.some.injEq, Prod.mk.injEq] at hm
    obtain ⟨hlex, hrest⟩ := hm
    obtain ⟨hip_cat, c, t, hip_shape, hdig⟩ := lexIntPart_concat hip
    have hsg : (lexSign s).1 ++ (lexSign s).2 = s ∧
        ((lexSign s).1 = [] ∨ (lexSign s).1 = ['-']) := by
      rcases s with _ | ⟨c0, r0⟩
      · simp [lexSign]
      · by_cases hc0 : c0 = '-'
        · subst hc0; simp [lexSign]
        · simp [lexSign, hc0]
    constructor
    · rw [← hlex, ← hrest]
      have e1 : (lexExp (lexFrac s2).2).1 ++ (lexExp (lexFrac s2).2).2 = (lexFrac s2).2 :=
        lexExp_concat _
      have e2 : (lexFrac s2).1 ++ (lexFrac s2).2 = s2 := lexFrac_concat _
      calc (lexSign s).1 ++ ip ++ (lexFrac s2).1 ++ (lexExp (lexFrac s2).2).1 ++
            (lexExp (lexFrac s2).2).2
          = (lexSign s).1 ++ (ip ++ ((lexFrac s2).1 ++ ((lexExp (lexFrac s2).2).1 ++
            (lexExp (lexFrac s2).2).2))) := by simp [List.append_assoc]
        _ = (lexSign s).1 ++ (ip ++ s2) := by rw [e1, e2]
        _ = s := by rw [hip_cat, hsg.1]
    · rcases hsg.2 with h0 | h0
      · rw [← hlex, h0, hip_shape]
        exact ⟨c, _, rfl, Or.inr hdig⟩
      · rw [← hlex, h0]
        exact ⟨'-', _, rfl, Or.inl rfl⟩

theorem lexSign_append {c0 : Char} (t0 r : List Char) :
    lexSign ((c0 :: t0) ++ r) = ((lexSign (c0 :: t0)).1, (lexSign (c0 :: t0)).2 ++ r) := by
  by_cases hc : c0 = '-'
  · simp [lexSign, hc]
  · simp [lexSign, hc]

theorem lexIntPart_append {s1 ip s2 : List Char} (r : List Char)
    (h : lexIntPart s1 = some (ip, s2)) (hr : numSafe r = true) :
    lexIntPart (s1 ++ r) = some (ip, s2 ++ r) := by
  rcases s1 with _ | ⟨c, t⟩
  · exact absurd h (by simp [lexIntPart])
  · by_cases hc0 : c = '0'
    · subst hc0
      rw [show lexIntPart ('0' :: t) = some (['0'], t) from by simp [lexIntPart]] at h
      injection h with h
      injection h with h1 h2
      subst h1
      subst h2
      simp [lexIntPart]
    · by_cases hc19 : isDigit19 c = true
      · rw [show lexIntPart (c :: t) =
            some (c :: t.takeWhile isDigitC, t.dropWhile isDigitC) from by
          simp [lexIntPart, hc0, hc19]] at h
        injection h with h
        injection h with h1 h2
        subst h1
        subst h2
        rw [show (c :: t) ++ r = c :: (t ++ r) from rfl]
        rw [show lexIntPart (c :: (t ++ r)) =
            some (c :: (t ++ r).takeWhile isDigitC, (t ++ r).dropWhile isDigitC) from by
          simp [lexIntPart, hc0, hc19]]
        by_cases hstop : t.dropWhile isDigitC = []
        · have hall : ∀ x ∈ t, isDigitC x = true := List.dropWhile_eq_nil_iff.mp hstop
          have happ := takeDropWhile_app_all t r hall (numSafe_digit_cond hr)
          have htake : t.takeWhile isDigitC = t := by
            have := List.takeWhile_append_dropWhile isDigitC t
            rwa [hstop, List.append_nil] at this
          rw [happ.1, happ.2, htake, hstop]
          simp
        · have happ := takeDropWhile_app_stop t r hstop
          rw [happ.1, happ.2]
      · exact absurd h (by simp [lexIntPart, hc0, hc19])

theorem lexFrac_append {s2 : List Char} (r : List Char) (hr : numSafe r = true) :
    lexFrac (s2 ++ r) = ((lexFrac s2).1, (lexFrac s2).2 ++ r) := by
  rcases s2 with _ | ⟨c, t⟩
  · rcases r with _ | ⟨c1, r1⟩
    · rfl
    · have hdot := numSafe_head_not_dot hr
      simp [lexFrac, hdot]
  · by_cases hc : c = '.'
    · subst hc
      by_cases hemp : (t.takeWhile isDigitC).isEmpty = true
      · have htr : ((t ++ r).takeWhile isDigitC).isEmpty = true := by
          rcases t with _ | ⟨c2, t2⟩
          · rcases r with _ | ⟨c1, r1⟩
            · simp
            · simp [List.takeWhile_cons, numSafe_head_not_digit hr]
          · rw [List.isEmpty_iff] at hemp
            rw [List.isEmpty_iff, List.cons_append, List.takeWhile_cons]
            rw [List.takeWhile_cons] at hemp
            rcases hd : isDigitC c2 with _ | _
            · simp [hd]
            · rw [hd] at hemp
              simp at hemp
        simp [lexFrac, hemp, htr]
      · have htne : t.takeWhile isDigitC ≠ [] := by
          intro hcon
          rw [hcon] at hemp
          simp at hemp
        by_cases hstop : t.dropWhile isDigitC = []
        · have hall : ∀ x ∈ t, isDigitC x = true := List.dropWhile_eq_nil_iff.mp hstop
          have happ := takeDropWhile_app_all t r hall (numSafe_digit_cond hr)
          have htake : t.takeWhile isDigitC = t := by
            have := List.takeWhile_append_dropWhile isDigitC t
            rwa [hstop, List.append_nil] at this
          have htrne : ((t ++ r).takeWhile isDigitC).isEmpty = false := by
            rw [happ.1]
            rcases t with _ | ⟨c2, t2⟩
            · exact absurd rfl (htake ▸ htne)
            · rfl
          rw [show ('.' :: t) ++ r = '.' :: (t ++ r) from rfl]
          simp only [lexFrac, if_pos rfl, htrne, hemp]
          rw [happ.1, happ.2, htake, hstop]
          simp
        · have happ := takeDropWhile_app_stop t r hstop
          have htrne : ((t ++ r).takeWhile isDigitC).isEmpty = false := by
            rw [happ.1]
            rcases hq : t.takeWhile isDigitC with _ | ⟨c2, t2⟩
            · exact absurd hq htne
            · rfl
          have hemp2 : (t.takeWhile isDigitC).isEmpty = false := by
            rcases hq : t.takeWhile isDigitC with _ | ⟨c2, t2⟩
            · exact absurd hq htne
            · rfl
          rw [show ('.' :: t) ++ r = '.' :: (t ++ r) from rfl]
          simp only [lexFrac, if_pos rfl, htrne, hemp2]
          rw [happ.1, happ.2]
          simp
    · simp [lexFrac, hc]

theorem lexExp_append {s3 ex1 : List Char} (r : List Char)
    (h : lexExp s3 = (ex1, [])) (hr : numSafe r = true) :
    lexExp (s3 ++ r) = (ex1, r) := by
  rcases s3 with _ | ⟨c, t⟩
  · injection h with h1 h2
    subst h1
    rcases r with _ | ⟨c1, r1⟩
    · rfl
    · have hne := numSafe_head_not_exp hr
      have hcc : (c1 = 'e' || c1 = 'E') = false := by
        simp [hne.1, hne.2]
      simp [lexExp, hcc]
  · by_cases hce : (c = 'e' || c = 'E') = true
    · rcases t with _ | ⟨c2, t2⟩
      · rw [show lexExp [c] = ([], [c]) from by simp [lexExp, hce]] at h
        injection h with h1 h2
        exact absurd h2 (by simp)
      · by_cases hsig : (c2 = '+' || c2 = '-') = true
        · by_cases hemp : (t2.takeWhile isDigitC).isEmpty = true
          · rw [show lexExp (c :: c2 :: t2) = ([], c :: c2 :: t2) from by
              simp [lexExp, hce, hsig, hemp]] at h
            injection h with h1 h2
            exact absurd h2 (by simp)
          · rw [show lexExp (c :: c2 :: t2) =
                (c :: c2 :: t2.takeWhile isDigitC, t2.dropWhile isDigitC) from by
              simp [lexExp, hce, hsig, hemp]] at h
            injection h with h1 h2
            subst h1
            have hall : ∀ x ∈ t2, isDigitC x = true := List.dropWhile_eq_nil_iff.mp h2
            have happ := takeDropWhile_app_all t2 r hall (numSafe_digit_cond hr)
            have htake : t2.takeWhile isDigitC = t2 := by
              have := List.takeWhile_append_dropWhile isDigitC t2
              rwa [h2, List.append_nil] at this
            have hne2 : ((t2 ++ r).takeWhile isDigitC).isEmpty = false := by
              rw [happ.1]
              rcases t2 with _ | ⟨c3, t3⟩
              · rw [htake] at hemp
                simp at hemp
              · rfl
            rw [show (c :: c2 :: t2) ++ r = c :: c2 :: (t2 ++ r) from rfl]
            rw [show lexExp (c :: c2 :: (t2 ++ r)) =
                (c :: c2 :: (t2 ++ r).takeWhile isDigitC, (t2 ++ r).dropWhile isDigitC) from by
              simp [lexExp, hce, hsig, hne2]]
            rw [happ.1, happ.2, htake]
        · by_cases hemp : ((c2 :: t2).takeWhile isDigitC).isEmpty = true
          · rw [show lexExp (c :: c2 :: t2) = ([], c :: c2 :: t2) from by
              simp [lexExp, hce, hsig, hemp]] at h
            injection h with h1 h2
            exact absurd h2 (by simp)
          · rw [show lexExp (c :: c2 :: t2) =
                (c :: (c2 :: t2).takeWhile isDigitC, (c2 :: t2).dropWhile isDigitC) from by
              simp [lexExp, hce, hsig, hemp]] at h
            injection h with h1 h2
            subst h1
            have hall : ∀ x ∈ c2 :: t2, isDigitC x = true := List.dropWhile_eq_nil_iff.mp h2
            have happ := takeDropWhile_app_all (c2 :: t2) r hall (numSafe_digit_cond hr)
            have htake : (c2 :: t2).takeWhile isDigitC = c2 :: t2 := by
              have := List.takeWhile_append_dropWhile isDigitC (c2 :: t2)
              rwa [h2, List.append_nil] at this
            have hne2 : (((c2 :: t2) ++ r).takeWhile isDigitC).isEmpty = false := by
              rw [happ.1]
              rfl
            rw [show (c :: c2 :: t2) ++ r = c :: ((c2 :: t2) ++ r) from rfl]
            rw [show lexExp (c :: ((c2 :: t2) ++ r)) =
                (c :: ((c2 :: t2) ++ r).takeWhile isDigitC,
                  ((c2 :: t2) ++ r).dropWhile isDigitC) from by
              simp only [List.cons_append]
              simp [lexExp, hce, hsig, hne2, hall c2 (List.mem_cons_self c2 t2)]]
            rw [happ.1, happ.2, htake]
    · rw [show lexExp (c :: t) = ([], c :: t) from by simp [lexExp, hce]] at h
      injection h with h1 h2
      exact absurd h2 (by simp)

theorem lexSign_fst_append {s : List Char} (r : List Char) (h : s ≠ []) :
    (lexSign (s ++ r)).1 = (lexSign s).1 := by
  rcases s with _ | ⟨c, t⟩
  · exact absurd rfl h
  · by_cases hc : c = '-' <;> simp [lexSign, hc]

theorem lexSign_snd_append {s : List Char} (r : List Char) (h : s ≠ []) :
    (lexSign (s ++ r)).2 = (lexSign s).2 ++ r := by
  rcases s with _ | ⟨c, t⟩
  · exact absurd rfl h
  · by_cases hc : c = '-' <;> simp [lexSign, hc]

theorem lexNumber_extend {lex : List Char} (r : List Char)
    (h : lexNumber lex = some (lex, [])) (hr : numSafe r = true) :
    lexNumber (lex ++ r) = some (lex, r) := by
  have hm : (match lexIntPart (lexSign lex).2 with
      | none => none
      | some (ip, s2) =>
        some ((lexSign lex).1 ++ ip ++ (lexFrac s2).1 ++ (lexExp (lexFrac s2).2).1,
          (lexExp (lexFrac s2).2).2)) = some (lex, []) := h
  clear h
  rcases hip : lexIntPart (lexSign lex).2 with _ | ⟨ip, s2⟩
  · rw [hip] at hm
    exact absurd hm (by simp)
  · rw [hip] at hm
    simp only [Option.some.injEq, Prod.mk.injEq] at hm
    obtain ⟨hlex, hex2⟩ := hm
    have hsne : lex ≠ [] := by
      intro hc
      rw [hc] at hip
      simp [lexSign, lexIntPart] at hip
    show (match lexIntPart (lexSign (lex ++ r)).2 with
      | none => none
      | some (ip, s2) =>
        some ((lexSign (lex ++ r)).1 ++ ip ++ (lexFrac s2).1 ++ (lexExp (lexFrac s2).2).1,
          (lexExp (lexFrac s2).2).2)) = some (lex, r)
    rw [lexSign_snd_append r hsne, lexSign_fst_append r hsne,
      lexIntPart_append r hip hr]
    show some ((lexSign lex).1 ++ ip ++ (lexFrac (s2 ++ r)).1 ++
        (lexExp (lexFrac (s2 ++ r)).2).1, (lexExp (lexFrac (s2 ++ r)).2).2) = some (lex, r)
    have hfr := @lexFrac_append s2 r hr
    have hfr1 : (lexFrac (s2 ++ r)).1 = (lexFrac s2).1 := by rw [hfr]
    have hfr2 : (lexFrac (s2 ++ r)).2 = (lexFrac s2).2 ++ r := by rw [hfr]
    rw [hfr1, hfr2]
    have hexp : lexExp (lexFrac s2).2 = ((lexExp (lexFrac s2).2).1, []) := by
      rw [← hex2]
    have hex := lexExp_append r hexp hr
    have hex1 : (lexExp ((lexFrac s2).2 ++ r)).1 = (lexExp (lexFrac s2).2).1 := by rw [hex]
    have hexB : (lexExp ((lexFrac s2).2 ++ r)).2 = r := by rw [hex]
    rw [hex1, hexB, hlex]

theorem parseStringRest_plain : ∀ (s rest : List Char), plainStr s = true →
    parseStringRest (s ++ dquoteC :: rest) = some (s, rest)
  | [], rest, _ => by
    show parseStringRest (dquoteC :: rest) = some ([], rest)
    unfold parseStringRest
    rw [if_pos rfl]
  | c :: s', rest, h => by
    have hparts : (!(c = dquoteC) && !(c = bslashC) && decide (32 ≤ c.toNat)) = true ∧
        plainStr s' = true := by
      unfold plainStr at h
      rw [List.all_cons, Bool.and_eq_true] at h
      exact ⟨h.1, h.2⟩
    have hc1 : ¬c = dquoteC := by
      have := hparts.1
      simp only [Bool.and_eq_true, Bool.not_eq_eq_eq_not, Bool.not_true,
        decide_eq_false_iff_not] at this
      exact this.1.1
    have hc2 : ¬c = bslashC := by
      have := hparts.1
      simp only [Bool.and_eq_true, Bool.not_eq_eq_eq_not, Bool.not_true,
        decide_eq_false_iff_not] at this
      exact this.1.2
    have hc3 : ¬c.toNat < 32 := by
      have := hparts.1
      simp only [Bool.and_eq_true, decide_eq_true_eq] at this
      omega
    have ih := parseStringRest_plain s' rest hparts.2
    show parseStringRest (c :: (s' ++ dquoteC :: rest)) = some (c :: s', rest)
    unfold parseStringRest
    rw [if_neg hc1, if_neg hc2, if_neg hc3, ih]

theorem numStart_ne {c : Char} (h : c = '-' ∨ isDigitC c = true) :
    ¬c = dquoteC ∧ ¬c = lbraceC ∧ ¬c = lbrackC ∧ ¬c = 'n' ∧ ¬c = 't' ∧ ¬c = 'f' := by
  rcases h with h | h
  · subst h
    exact ⟨by decide, by decide, by decide, by decide, by decide, by decide⟩
  · refine ⟨?_, ?_, ?_, ?_, ?_, ?_⟩ <;>
    · intro he
      rw [he] at h
      exact absurd h (by decide)

theorem litPre_null_false {c : Char} (x : List Char) (hc : ¬c = 'n') :
    litPre nullL (c :: x) = false := by
  show litPre ('n' :: 'u' :: 'l' :: 'l' :: []) (c :: x) = false
  simp [litPre, hc]

theorem litPre_true_false {c : Char} (x : List Char) (hc : ¬c = 't') :
    litPre trueL (c :: x) = false := by
  show litPre ('t' :: 'r' :: 'u' :: 'e' :: []) (c :: x) = false
  simp [litPre, hc]

theorem litPre_false_false {c : Char} (x : List Char) (hc : ¬c = 'f') :
    litPre falseL (c :: x) = false := by
  show litPre ('f' :: 'a' :: 'l' :: 's' :: 'e' :: []) (c :: x) = false
  simp [litPre, hc]

theorem parseVal_num_rt (lex : List Char) (fuel : Nat) (rest : List Char)
    (hw : wfNumLex lex = true) (hr : numSafe rest = true) :
    parseVal (fuel + 1) (lex ++ rest) = some (.num lex, rest) := by
  unfold wfNumLex at hw
  rcases hlx : lexNumber lex with _ | ⟨lx, rst⟩
  · rw [hlx] at hw
    simp only [Bool.or_eq_true, decide_eq_true_eq] at hw
    rcases hw with (h | h) | h
    · subst h
      show parseVal (fuel + 1) ('N' :: 'a' :: 'N' :: rest) = some (.num nanL, rest)
      simp [parseVal, litPre, lexNumber, lexSign, lexIntPart, isDigit19, nanL,
        dquoteC, lbraceC, lbrackC]
    · subst h
      show parseVal (fuel + 1)
        ('I' :: 'n' :: 'f' :: 'i' :: 'n' :: 'i' :: 't' :: 'y' :: rest) =
          some (.num infL, rest)
      simp [parseVal, litPre, lexNumber, lexSign, lexIntPart, isDigit19, nanL, infL,
        dquoteC, lbraceC, lbrackC]
    · subst h
      show parseVal (fuel + 1)
        ('-' :: 'I' :: 'n' :: 'f' :: 'i' :: 'n' :: 'i' :: 't' :: 'y' :: rest) =
          some (.num ninfL, rest)
      simp [parseVal, litPre, lexNumber, lexSign, lexIntPart, isDigit19, nanL, infL, ninfL,
        dquoteC, lbraceC, lbrackC]
  · rw [hlx] at hw
    rw [List.isEmpty_iff] at hw
    subst hw
    obtain ⟨hcat, c, t, hshape, hstart⟩ := lexNumber_parts hlx
    rw [List.append_nil] at hcat
    subst hcat
    have hext := lexNumber_extend rest hlx hr
    obtain ⟨hd, hb, hk, hn, ht, hf⟩ := numStart_ne hstart
    rw [hshape] at hext ⊢
    rw [show (c :: t) ++ rest = c :: (t ++ rest) from rfl] at hext ⊢
    simp only [parseVal, if_neg hd, if_neg hb, if_neg hk,
      litPre_null_false _ hn, litPre_true_false _ ht, litPre_false_false _ hf,
      Bool.false_eq_true, if_false, hext]

theorem upsert_append_fresh : ∀ (acc : List (List Char × JsonVal)) (k : List Char)
    (v : JsonVal), keyFreshIn k acc = true → upsertMember acc k v = acc ++ [(k, v)]
  | [], _, _, _ => rfl
  | (k0, v0) :: rest, k, v, h => by
    have hk0 : ¬k0 = k := by
      unfold keyFreshIn at h
      rw [List.all_cons, Bool.and_eq_true] at h
      simpa using h.1
    have hrest : keyFreshIn k rest = true := by
      unfold keyFreshIn at h ⊢
      rw [List.all_cons, Bool.and_eq_true] at h
      exact h.2
    simp only [upsertMember, if_neg hk0, upsert_append_fresh rest k v hrest,
      List.cons_append]

/-- Keys pairwise fresh along the list (each key absent from its tail). -/
def pairFresh : List (List Char × JsonVal) → Bool
  | [] => true
  | (k, _) :: ms => keyFreshIn k ms && pairFresh ms

theorem wfMembers_parts {k : List Char} {v : JsonVal} {ms : List (List Char × JsonVal)}
    (h : wfMembers ((k, v) :: ms) = true) :
    plainStr k = true ∧ wfV v = true ∧ keyFreshIn k ms = true ∧ wfMembers ms = true := by
  have h' : (plainStr k && wfV v && keyFreshIn k ms && wfMembers ms) = true := h
  simp only [Bool.and_eq_true] at h'
  exact ⟨h'.1.1.1, h'.1.1.2, h'.1.2, h'.2⟩

theorem wfMembers_pairFresh : ∀ ms : List (List Char × JsonVal),
    wfMembers ms = true → pairFresh ms = true
  | [], _ => rfl
  | (k, v) :: ms, h => by
    obtain ⟨_, _, hk, hm⟩ := wfMembers_parts h
    simp [pairFresh, hk, wfMembers_pairFresh ms hm]

theorem keyFreshIn_ne {k : List Char} {ms : List (List Char × JsonVal)}
    (h : keyFreshIn k ms = true) :
    ∀ kv ∈ ms, ¬kv.1 = k := by
  intro kv hkv
  unfold keyFreshIn at h
  rw [List.all_eq_true] at h
  simpa using h kv hkv

theorem dedup_go : ∀ (ms acc : List (List Char × JsonVal)),
    (∀ kv ∈ ms, keyFreshIn kv.1 acc = true) → pairFresh ms = true →
    List.foldl (fun acc kv => upsertMember acc kv.1 kv.2) acc ms = acc ++ ms
  | [], acc, _, _ => by simp
  | (k, v) :: ms, acc, hfresh, hpair => by
    have hpair' : (keyFreshIn k ms && pairFresh ms) = true := hpair
    rw [Bool.and_eq_true] at hpair'
    simp only [List.foldl_cons]
    rw [upsert_append_fresh acc k v (hfresh (k, v) (List.mem_cons_self _ _))]
    rw [dedup_go ms (acc ++ [(k, v)]) ?ha hpair'.2]
    · simp
    · intro kv hkv
      unfold keyFreshIn
      rw [List.all_append, Bool.and_eq_true]
      refine ⟨hfresh kv (List.mem_cons_of_mem _ hkv), ?_⟩
      have hne := keyFreshIn_ne hpair'.1 kv hkv
      have hne' : ¬k = kv.1 := fun he => hne he.symm
      simp [hne']

theorem dedupKeys_wf (ms : List (List Char × JsonVal)) (h : wfMembers ms = true) :
    dedupKeys ms = ms := by
  unfold dedupKeys
  have := dedup_go ms [] (fun kv _ => rfl) (wfMembers_pairFresh ms h)
  simpa using this

/-- Characters that can begin a serialized JSON value. -/
def valStart (c : Char) : Bool :=
  c = dquoteC || c = lbraceC || c = lbrackC || c = 'n' || c = 't' || c = 'f' ||
  c = '-' || isDigitC c || c = 'N' || c = 'I'

theorem serV_head (j : JsonVal) (h : wfV j = true) :
    ∃ c t, serV j = c :: t ∧ valStart c = true := by
  cases j with
  | null => exact ⟨'n', _, rfl, by decide⟩
  | boolean b =>
    cases b
    · exact ⟨'f', _, rfl, by decide⟩
    · exact ⟨'t', _, rfl, by decide⟩
  | num lex =>
    have hw : wfNumLex lex = true := h
    unfold wfNumLex at hw
    rcases hlx : lexNumber lex with _ | ⟨lx, rst⟩
    · rw [hlx] at hw
      simp only [Bool.or_eq_true, decide_eq_true_eq] at hw
      rcases hw with (h1 | h1) | h1 <;> subst h1
      · exact ⟨'N', _, rfl, by decide⟩
      · exact ⟨'I', _, rfl, by decide⟩
      · exact ⟨'-', _, rfl, by decide⟩
    · rw [hlx] at hw
      rw [List.isEmpty_iff] at hw
      subst hw
      obtain ⟨hcat, c, t, hshape, hstart⟩ := lexNumber_parts hlx
      rw [List.append_nil] at hcat
      refine ⟨c, t, by rw [show serV (.num lex) = lex from rfl, ← hcat, hshape], ?_⟩
      rcases hstart with h1 | h1
      · subst h1; decide
      · simp [valStart, h1]
  | str s => exact ⟨dquoteC, _, rfl, by decide⟩
  | arr es => exact ⟨lbrackC, _, rfl, by decide⟩
  | obj ms => exact ⟨lbraceC, _, rfl, by decide⟩

theorem valStart_not_jws {c : Char} (h : valStart c = true) : isJWs c = false := by
  simp only [valStart, Bool.or_eq_true, decide_eq_true_eq] at h
  rcases h with ((((((((h | h) | h) | h) | h) | h) | h) | h) | h) | h
  all_goals first
  | (subst h; decide)
  | (simp only [isJWs, Bool.or_eq_false_iff, decide_eq_false_iff_not]
     refine ⟨⟨⟨?_, ?_⟩, ?_⟩, ?_⟩ <;>
     · intro he
       rw [he] at h
       exact absurd h (by decide))

theorem valStart_ne_rbrack {c : Char} (h : valStart c = true) : ¬c = rbrackC := by
  simp only [valStart, Bool.or_eq_true, decide_eq_true_eq] at h
  rcases h with ((((((((h | h) | h) | h) | h) | h) | h) | h) | h) | h
  all_goals first
  | (subst h; decide)
  | (intro he
     rw [he] at h
     exact absurd h (by decide))

theorem valStart_ne_rbrace {c : Char} (h : valStart c = true) : ¬c = rbraceC := by
  simp only [valStart, Bool.or_eq_true, decide_eq_true_eq] at h
  rcases h with ((((((((h | h) | h) | h) | h) | h) | h) | h) | h) | h
  all_goals first
  | (subst h; decide)
  | (intro he
     rw [he] at h
     exact absurd h (by decide))

theorem skipJWs_not_ws {c : Char} (t : List Char) (h : isJWs c = false) :
    skipJWs (c :: t) = c :: t := by
  simp [skipJWs, List.dropWhile_cons, h]

/-- The separator-prefixed continuation of a serialized element list. -/
def serElemsTail : List JsonVal → List Char
  | [] => []
  | x :: xs => ',' :: serElems (x :: xs)

/-- The separator-prefixed continuation of a serialized member list. -/
def serMembersTail : List (List Char × JsonVal) → List Char
  | [] => []
  | m :: ms => ',' :: serMembers (m :: ms)

theorem serElems_cons_eq (e : JsonVal) (es : List JsonVal) :
    serElems (e :: es) = serV e ++ serElemsTail es := by
  cases es with
  | nil => simp [serElems, serElemsTail]
  | cons x xs => rfl

theorem serMembers_cons_eq (k : List Char) (v : JsonVal)
    (ms : List (List Char × JsonVal)) :
    serMembers ((k, v) :: ms) =
      dquoteC :: (k ++ dquoteC :: ':' :: serV v ++ serMembersTail ms) := by
  cases ms with
  | nil => simp [serMembers, serMembersTail]
  | cons m2 ms2 => rfl

theorem wfElems_parts {e : JsonVal} {es : List JsonVal}
    (h : wfElems (e :: es) = true) : wfV e = true ∧ wfElems es = true := by
  have h' : (wfV e && wfElems es) = true := h
  rw [Bool.and_eq_true] at h'
  exact h'

theorem parseVal_str_go (f : Nat) (x : List Char) :
    parseVal (f + 1) (dquoteC :: x) =
      (match parseStringRest x with
       | some (cs, r2) => some (.str cs, r2)
       | none => none) := by
  simp only [parseVal]
  rw [if_pos trivial]

theorem parseVal_arr_nil (f : Nat) (x : List Char) (r2 : List Char)
    (hx : skipJWs x = rbrackC :: r2) :
    parseVal (f + 1) (lbrackC :: x) = some (.arr [], r2) := by
  simp only [parseVal]
  rw [if_neg (by decide : ¬lbrackC = dquoteC), if_neg (by decide : ¬lbrackC = lbraceC),
    if_pos trivial, hx]
  show (if rbrackC = rbrackC then some (JsonVal.arr [], r2) else
    match parseElems f (rbrackC :: r2) with
    | some (es, r3) => some (.arr es, r3)
    | none => none) = some (.arr [], r2)
  rw [if_pos rfl]

theorem parseVal_arr_go (f : Nat) (x : List Char) (c2 : Char) (r2 : List Char)
    (hx : skipJWs x = c2 :: r2) (hc2 : ¬c2 = rbrackC) :
    parseVal (f + 1) (lbrackC :: x) =
      (match parseElems f (c2 :: r2) with
       | some (es, r3) => some (.arr es, r3)
       | none => none) := by
  simp only [parseVal]
  rw [if_neg (by decide : ¬lbrackC = dquoteC), if_neg (by decide : ¬lbrackC = lbraceC),
    if_pos trivial, hx]
  show (if c2 = rbrackC then some (JsonVal.arr [], r2) else
    match parseElems f (c2 :: r2) with
    | some (es, r3) => some (.arr es, r3)
    | none => none) = _
  rw [if_neg hc2]

theorem parseVal_obj_nil (f : Nat) (x : List Char) (r2 : List Char)
    (hx : skipJWs x = rbraceC :: r2) :
    parseVal (f + 1) (lbraceC :: x) = some (.obj [], r2) := by
  simp only [parseVal]
  rw [if_neg (by decide : ¬lbraceC = dquoteC), if_pos trivial, hx]
  show (if rbraceC = rbraceC then some (JsonVal.obj [], r2) else
    match parseMembers f (rbraceC :: r2) with
    | some (ms, r3) => some (.obj (dedupKeys ms), r3)
    | none => none) = some (.obj [], r2)
  rw [if_pos rfl]

theorem parseVal_obj_go (f : Nat) (x : List Char) (c2 : Char) (r2 : List Char)
    (hx : skipJWs x = c2 :: r2) (hc2 : ¬c2 = rbraceC) :
    parseVal (f + 1) (lbraceC :: x) =
      (match parseMembers f (c2 :: r2) with
       | some (ms, r3) => some (.obj (dedupKeys ms), r3)
       | none => none) := by
  simp only [parseVal]
  rw [if_neg (by decide : ¬lbraceC = dquoteC), if_pos trivial, hx]
  show (if c2 = rbraceC then some (JsonVal.obj [], r2) else
    match parseMembers f (c2 :: r2) with
    | some (ms, r3) => some (.obj (dedupKeys ms), r3)
    | none => none) = _
  rw [if_neg hc2]

theorem numSafe_rbrack (rest : List Char) : numSafe (rbrackC :: rest) = true := rfl

theorem numSafe_rbrace (rest : List Char) : numSafe (rbraceC :: rest) = true := rfl

theorem numSafe_comma (rest : List Char) : numSafe (',' :: rest) = true := rfl

mutual

theorem rtVal : ∀ (j : JsonVal) (fuel : Nat) (rest : List Char),
    wfV j = true → (serV j).length < fuel → numSafe rest = true →
    parseVal fuel (serV j ++ rest) = some (j, rest)
  | .null, fuel, rest, _, hf, _ => by
    cases fuel with
    | zero => exact absurd hf (Nat.not_lt_zero _)
    | succ f =>
      show parseVal (f + 1) ('n' :: 'u' :: 'l' :: 'l' :: rest) = some (.null, rest)
      simp [parseVal, litPre, dquoteC, lbraceC, lbrackC, nullL]
  | .boolean true, fuel, rest, _, hf, _ => by
    cases fuel with
    | zero => exact absurd hf (Nat.not_lt_zero _)
    | succ f =>
      show parseVal (f + 1) ('t' :: 'r' :: 'u' :: 'e' :: rest) = some (.boolean true, rest)
      simp [parseVal, litPre, dquoteC, lbraceC, lbrackC, nullL, trueL]
  | .boolean false, fuel, rest, _, hf, _ => by
    cases fuel with
    | zero => exact absurd hf (Nat.not_lt_zero _)
    | succ f =>
      show parseVal (f + 1) ('f' :: 'a' :: 'l' :: 's' :: 'e' :: rest) =
        some (.boolean false, rest)
      simp [parseVal, litPre, dquoteC, lbraceC, lbrackC, nullL, trueL, falseL]
  | .num lex, fuel, rest, hw, hf, hr => by
    cases fuel with
    | zero => exact absurd hf (Nat.not_lt_zero _)
    | succ f => exact parseVal_num_rt lex f rest hw hr
  | .str s, fuel, rest, hw, hf, _ => by
    cases fuel with
    | zero => exact absurd hf (Nat.not_lt_zero _)
    | succ f =>
      have harg : serV (.str s) ++ rest = dquoteC :: (s ++ dquoteC :: rest) := by
        show (dquoteC :: s ++ [dquoteC]) ++ rest = _
        simp
      rw [harg, parseVal_str_go, parseStringRest_plain s rest hw]
  | .arr [], fuel, rest, _, hf, _ => by
    cases fuel with
    | zero => exact absurd hf (Nat.not_lt_zero _)
    | succ f =>
      show parseVal (f + 1) (lbrackC :: rbrackC :: rest) = some (.arr [], rest)
      exact parseVal_arr_nil f _ rest (skipJWs_not_ws rest (by decide))
  | .arr (e :: es), fuel, rest, hw, hf, _ => by
    cases fuel with
    | zero => exact absurd hf (Nat.not_lt_zero _)
    | succ f =>
      have hwe : wfElems (e :: es) = true := hw
      obtain ⟨hwe1, _⟩ := wfElems_parts hwe
      have hlen : (serV (.arr (e :: es))).length = (serElems (e :: es)).length + 2 := by
        show (lbrackC :: serElems (e :: es) ++ [rbrackC]).length = _
        simp
      have hfe : (serElems (e :: es)).length + 1 < f := by omega
      have key := rtElems e es f rest hwe hfe
      obtain ⟨c0, t0, hser, hstart⟩ := serV_head e hwe1
      have hXeq : serElems (e :: es) ++ rbrackC :: rest =
          c0 :: (t0 ++ (serElemsTail es ++ rbrackC :: rest)) := by
        rw [serElems_cons_eq, hser]
        simp
      have hskip : skipJWs (serElems (e :: es) ++ rbrackC :: rest) =
          c0 :: (t0 ++ (serElemsTail es ++ rbrackC :: rest)) := by
        rw [hXeq]
        exact skipJWs_not_ws _ (valStart_not_jws hstart)
      have harg : serV (.arr (e :: es)) ++ rest =
          lbrackC :: (serElems (e :: es) ++ rbrackC :: rest) := by
        show (lbrackC :: serElems (e :: es) ++ [rbrackC]) ++ rest = _
        simp
      rw [harg, parseVal_arr_go f _ _ _ hskip (valStart_ne_rbrack hstart), ← hXeq, key]
  | .obj [], fuel, rest, _, hf, _ => by
    cases fuel with
    | zero => exact absurd hf (Nat.not_lt_zero _)
    | succ f =>
      show parseVal (f + 1) (lbraceC :: rbraceC :: rest) = some (.obj [], rest)
      exact parseVal_obj_nil f _ rest (skipJWs_not_ws rest (by decide))
  | .obj ((k, v) :: ms), fuel, rest, hw, hf, _ => by
    cases fuel with
    | zero => exact absurd hf (Nat.not_lt_zero _)
    | succ f =>
      have hwm : wfMembers ((k, v) :: ms) = true := hw
      have hlen : (serV (.obj ((k, v) :: ms))).length =
          (serMembers ((k, v) :: ms)).length + 2 := by
        show (lbraceC :: serMembers ((k, v) :: ms) ++ [rbraceC]).length = _
        simp
      have hfm : (serMembers ((k, v) :: ms)).length + 1 < f := by omega
      have key := rtMembers k v ms f rest hwm hfm
      have hXeq : serMembers ((k, v) :: ms) ++ rbraceC :: rest =
          dquoteC :: ((k ++ dquoteC :: ':' :: serV v ++ serMembersTail ms) ++
            rbraceC :: rest) := by
        rw [serMembers_cons_eq]
        simp
      have hskip : skipJWs (serMembers ((k, v) :: ms) ++ rbraceC :: rest) =
          dquoteC :: ((k ++ dquoteC :: ':' :: serV v ++ serMembersTail ms) ++
            rbraceC :: rest) := by
        rw [hXeq]
        exact skipJWs_not_ws _ (by decide)
      have harg : serV (.obj ((k, v) :: ms)) ++ rest =
          lbraceC :: (serMembers ((k, v) :: ms) ++ rbraceC :: rest) := by
        show (lbraceC :: serMembers ((k, v) :: ms) ++ [rbraceC]) ++ rest = _
        simp
      rw [harg, parseVal_obj_go f _ _ _ hskip (by decide), ← hXeq, key]
      show some (JsonVal.obj (dedupKeys ((k, v) :: ms)), rest) =
        some (JsonVal.obj ((k, v) :: ms), rest)
      rw [dedupKeys_wf _ hwm]
termination_by j _ _ _ _ _ => sizeOf j

theorem rtElems : ∀ (e : JsonVal) (es : List JsonVal) (fuel : Nat) (rest : List Char),
    wfElems (e :: es) = true → (serElems (e :: es)).length + 1 < fuel →
    parseElems fuel (serElems (e :: es) ++ rbrackC :: rest) = some (e :: es, rest)
  | e, [], fuel, rest, hw, hf => by
    cases fuel with
    | zero => exact absurd hf (Nat.not_lt_zero _)
    | succ f =>
      obtain ⟨hwe, _⟩ := wfElems_parts hw
      have hfe : (serV e).length < f := by
        have : serElems [e] = serV e := rfl
        rw [this] at hf
        omega
      have hv := rtVal e f (rbrackC :: rest) hwe hfe (numSafe_rbrack rest)
      show parseElems (f + 1) (serV e ++ rbrackC :: rest) = some ([e], rest)
      simp only [parseElems, hv]
      rw [skipJWs_not_ws rest (by decide)]
      show (if rbrackC = rbrackC then some ([e], rest)
        else if rbrackC = ',' then
          match parseElems f (skipJWs rest) with
          | some (es, r3) => some (e :: es, r3)
          | none => none
        else none) = some ([e], rest)
      rw [if_pos rfl]
  | e, x :: xs, fuel, rest, hw, hf => by
    cases fuel with
    | zero => exact absurd hf (Nat.not_lt_zero _)
    | succ f =>
      obtain ⟨hwe, hwxs⟩ := wfElems_parts hw
      obtain ⟨hwx, _⟩ := wfElems_parts hwxs
      have hlen : (serElems (e :: x :: xs)).length =
          (serV e).length + 1 + (serElems (x :: xs)).length := by
        show (serV e ++ ',' :: serElems (x :: xs)).length = _
        simp
        omega
      have hfe : (serV e).length < f := by omega
      have hfx : (serElems (x :: xs)).length + 1 < f := by omega
      have hv := rtVal e f (',' :: (serElems (x :: xs) ++ rbrackC :: rest)) hwe hfe
        (numSafe_comma _)
      have key := rtElems x xs f rest hwxs hfx
      have harg : serElems (e :: x :: xs) ++ rbrackC :: rest =
          serV e ++ (',' :: (serElems (x :: xs) ++ rbrackC :: rest)) := by
        show (serV e ++ ',' :: serElems (x :: xs)) ++ rbrackC :: rest = _
        simp
      rw [harg]
      simp only [parseElems, hv]
      rw [skipJWs_not_ws _ (by decide : isJWs ',' = false)]
      show (if (',' : Char) = rbrackC then
          some ([e], serElems (x :: xs) ++ rbrackC :: rest)
        else if (',' : Char) = ',' then
          match parseElems f (skipJWs (serElems (x :: xs) ++ rbrackC :: rest)) with
          | some (es, r3) => some (e :: es, r3)
          | none => none
        else none) = some (e :: x :: xs, rest)
      rw [if_neg (by decide : ¬(',' : Char) = rbrackC), if_pos rfl]
      obtain ⟨c0, t0, hser, hstart⟩ := serV_head x hwx
      have hXeq : serElems (x :: xs) ++ rbrackC :: rest =
          c0 :: (t0 ++ (serElemsTail xs ++ rbrackC :: rest)) := by
        rw [serElems_cons_eq, hser]
        simp
      rw [hXeq, skipJWs_not_ws _ (valStart_not_jws hstart), ← hXeq, key]
termination_by e es _ _ _ _ => sizeOf e + sizeOf es

theorem rtMembers : ∀ (k : List Char) (v : JsonVal) (ms : List (List Char × JsonVal))
    (fuel : Nat) (rest : List Char),
    wfMembers ((k, v) :: ms) = true → (serMembers ((k, v) :: ms)).length + 1 < fuel →
    parseMembers fuel (serMembers ((k, v) :: ms) ++ rbraceC :: rest) =
      some ((k, v) :: ms, rest)
  | k, v, [], fuel, rest, hw, hf => by
    cases fuel with
    | zero => exact absurd hf (Nat.not_lt_zero _)
    | succ f =>
      obtain ⟨hpk, hwv, _, _⟩ := wfMembers_parts hw
      have hlen : (serMembers [(k, v)]).length = k.length + (serV v).length + 3 := by
        show (dquoteC :: k ++ dquoteC :: ':' :: serV v).length = _
        simp
        omega
      have hfv : (serV v).length < f := by omega
      have harg : serMembers [(k, v)] ++ rbraceC :: rest =
          dquoteC :: (k ++ dquoteC :: (':' :: (serV v ++ rbraceC :: rest))) := by
        show (dquoteC :: k ++ dquoteC :: ':' :: serV v) ++ rbraceC :: rest = _
        simp
      rw [harg]
      simp only [parseMembers]
      rw [if_pos trivial, parseStringRest_plain k _ hpk]
      show (match skipJWs (':' :: (serV v ++ rbraceC :: rest)) with
        | [] => none
        | c2 :: r2 =>
          if c2 = ':' then
            match parseVal f (skipJWs r2) with
            | some (v2, r3) =>
              (match skipJWs r3 with
               | [] => none
               | c4 :: r4 =>
                 if c4 = rbraceC then some ([(k, v2)], r4)
                 else if c4 = ',' then
                   match parseMembers f (skipJWs r4) with
                   | some (ms2, r5) => some ((k, v2) :: ms2, r5)
                   | none => none
                 else none)
            | none => none
          else none) = some ([(k, v)], rest)
      rw [skipJWs_not_ws _ (by decide : isJWs ':' = false)]
      show (if (':' : Char) = ':' then
          match parseVal f (skipJWs (serV v ++ rbraceC :: rest)) with
          | some (v2, r3) =>
            (match skipJWs r3 with
             | [] => none
             | c4 :: r4 =>
               if c4 = rbraceC then some ([(k, v2)], r4)
               else if c4 = ',' then
                 match parseMembers f (skipJWs r4) with
                 | some (ms2, r5) => some ((k, v2) :: ms2, r5)
                 | none => none
               else none)
          | none => none
        else none) = some ([(k, v)], rest)
      rw [if_pos rfl]
      obtain ⟨c0, t0, hser, hstart⟩ := serV_head v hwv
      have hXeq : serV v ++ rbraceC :: rest = c0 :: (t0 ++ rbraceC :: rest) := by
        rw [hser]
        simp
      have hv := rtVal v f (rbraceC :: rest) hwv hfv (numSafe_rbrace rest)
      rw [hXeq, skipJWs_not_ws _ (valStart_not_jws hstart), ← hXeq, hv]
      show (match skipJWs (rbraceC :: rest) with
        | [] => none
        | c4 :: r4 =>
          if c4 = rbraceC then some ([(k, v)], r4)
          else if c4 = ',' then
            match parseMembers f (skipJWs r4) with
            | some (ms2, r5) => some ((k, v) :: ms2, r5)
            | none => none
          else none) = some ([(k, v)], rest)
      rw [skipJWs_not_ws rest (by decide)]
      show (if rbraceC = rbraceC then some ([(k, v)], rest)
        else if rbraceC = ',' then
          match parseMembers f (skipJWs rest) with
          | some (ms2, r5) => some ((k, v) :: ms2, r5)
          | none => none
        else none) = some ([(k, v)], rest)
      rw [if_pos rfl]
  | k, v, (k2, v2) :: ms, fuel, rest, hw, hf => by
    cases fuel with
    | zero => exact absurd hf (Nat.not_lt_zero _)
    | succ f =>
      obtain ⟨hpk, hwv, _, hwm2⟩ := wfMembers_parts hw
      have hlen : (serMembers ((k, v) :: (k2, v2) :: ms)).length =
          k.length + (serV v).length + 4 + (serMembers ((k2, v2) :: ms)).length := by
        show (dquoteC :: k ++ dquoteC :: ':' :: serV v ++
          ',' :: serMembers ((k2, v2) :: ms)).length = _
        simp
        omega
      have hfv : (serV v).length < f := by omega
      have hfm : (serMembers ((k2, v2) :: ms)).length + 1 < f := by omega
      have key := rtMembers k2 v2 ms f rest hwm2 hfm
      have harg : serMembers ((k, v) :: (k2, v2) :: ms) ++ rbraceC :: rest =
          dquoteC :: (k ++ dquoteC :: (':' :: (serV v ++
            ',' :: (serMembers ((k2, v2) :: ms) ++ rbraceC :: rest)))) := by
        show (dquoteC :: k ++ dquoteC :: ':' :: serV v ++
          ',' :: serMembers ((k2, v2) :: ms)) ++ rbraceC :: rest = _
        simp
      rw [harg]
      simp only [parseMembers]
      rw [if_pos trivial, parseStringRest_plain k _ hpk]
      show (match skipJWs (':' :: (serV v ++ ',' :: (serMembers ((k2, v2) :: ms) ++
          rbraceC :: rest))) with
        | [] => none
        | c2 :: r2 =>
          if c2 = ':' then
            match parseVal f (skipJWs r2) with
            | some (v3, r3) =>
              (match skipJWs r3 with
               | [] => none
               | c4 :: r4 =>
                 if c4 = rbraceC then some ([(k, v3)], r4)
                 else if c4 = ',' then
                   match parseMembers f (skipJWs r4) with
                   | some (ms2, r5) => some ((k, v3) :: ms2, r5)
                   | none => none
                 else none)
            | none => none
          else none) = some ((k, v) :: (k2, v2) :: ms, rest)
      rw [show skipJWs (':' :: (serV v ++ ',' :: (serMembers ((k2, v2) :: ms) ++
          rbraceC :: rest))) = ':' :: (serV v ++ ',' :: (serMembers ((k2, v2) :: ms) ++
          rbraceC :: rest)) from skipJWs_not_ws _ (by decide)]
      show (if (':' : Char) = ':' then
          match parseVal f (skipJWs (serV v ++ ',' :: (serMembers ((k2, v2) :: ms) ++
            rbraceC :: rest))) with
          | some (v3, r3) =>
            (match skipJWs r3 with
             | [] => none
             | c4 :: r4 =>
               if c4 = rbraceC then some ([(k, v3)], r4)
               else if c4 = ',' then
                 match parseMembers f (skipJWs r4) with
                 | some (ms2, r5) => some ((k, v3) :: ms2, r5)
                 | none => none
               else none)
          | none => none
        else none) = some ((k, v) :: (k2, v2) :: ms, rest)
      rw [if_pos rfl]
      obtain ⟨c0, t0, hser, hstart⟩ := serV_head v hwv
      have hXeq : serV v ++ ',' :: (serMembers ((k2, v2) :: ms) ++ rbraceC :: rest) =
          c0 :: (t0 ++ ',' :: (serMembers ((k2, v2) :: ms) ++ rbraceC :: rest)) := by
        rw [hser]
        simp
      have hv := rtVal v f (',' :: (serMembers ((k2, v2) :: ms) ++ rbraceC :: rest))
        hwv hfv (numSafe_comma _)
      rw [hXeq, skipJWs_not_ws _ (valStart_not_jws hstart), ← hXeq, hv]
      show (match skipJWs (',' :: (serMembers ((k2, v2) :: ms) ++ rbraceC :: rest)) with
        | [] => none
        | c4 :: r4 =>
          if c4 = rbraceC then some ([(k, v)], r4)
          else if c4 = ',' then
            match parseMembers f (skipJWs r4) with
            | some (ms2, r5) => some ((k, v) :: ms2, r5)
            | none => none
          else none) = some ((k, v) :: (k2, v2) :: ms, rest)
      rw [skipJWs_not_ws _ (by decide : isJWs ',' = false)]
      show (if (',' : Char) = rbraceC then
          some ([(k, v)], serMembers ((k2, v2) :: ms) ++ rbraceC :: rest)
        else if (',' : Char) = ',' then
          match parseMembers f (skipJWs (serMembers ((k2, v2) :: ms) ++
            rbraceC :: rest)) with
          | some (ms2, r5) => some ((k, v) :: ms2, r5)
          | none => none
        else none) = some ((k, v) :: (k2, v2) :: ms, rest)
      rw [if_neg (by decide : ¬(',' : Char) = rbraceC), if_pos rfl]
      have hm2 := serMembers_cons_eq k2 v2 ms
      have hXeq2 : serMembers ((k2, v2) :: ms) ++ rbraceC :: rest =
          dquoteC :: ((k2 ++ dquoteC :: ':' :: serV v2 ++ serMembersTail ms) ++
            rbraceC :: rest) := by
        rw [hm2]
        simp
      rw [hXeq2, skipJWs_not_ws _ (by decide), ← hXeq2, key]
termination_by k v ms _ _ _ _ => sizeOf v + sizeOf ms

end

theorem jsonLoads_ser (j : JsonVal) (h : wfV j = true) : jsonLoads (serV j) = some j := by
  obtain ⟨c, t, hser, hstart⟩ := serV_head j h
  have hskip : skipJWs (serV j) = serV j := by
    rw [hser]
    exact skipJWs_not_ws _ (valStart_not_jws hstart)
  show (match parseVal ((skipJWs (serV j)).length + 1) (skipJWs (serV j)) with
    | some (v, r) => if (skipJWs r).isEmpty then some v else none
    | none => none) = some j
  rw [hskip]
  have hrt := rtVal j ((serV j).length + 1) [] h (by omega) rfl
  rw [List.append_nil] at hrt
  rw [hrt]
  rfl

theorem noBTElems_parts {e : JsonVal} {es : List JsonVal}
    (h : noBTElems (e :: es) = true) : noBTV e = true ∧ noBTElems es = true := by
  have h' : (noBTV e && noBTElems es) = true := h
  rw [Bool.and_eq_true] at h'
  exact h'

theorem noBTMembers_parts {k : List Char} {v : JsonVal} {ms : List (List Char × JsonVal)}
    (h : noBTMembers ((k, v) :: ms) = true) :
    noBq k = true ∧ noBTV v = true ∧ noBTMembers ms = true := by
  have h' : (noBq k && noBTV v && noBTMembers ms) = true := h
  simp only [Bool.and_eq_true] at h'
  exact ⟨h'.1.1, h'.1.2, h'.2⟩

theorem noBq_mem {s : List Char} (h : noBq s = true) : ∀ c ∈ s, ¬c = bqC := by
  intro c hc
  unfold noBq at h
  rw [List.all_eq_true] at h
  simpa using h c hc

mutual

theorem serV_no_bq : ∀ (j : JsonVal), noBTV j = true → ∀ c ∈ serV j, ¬c = bqC
  | .null, _ => by decide
  | .boolean true, _ => by decide
  | .boolean false, _ => by decide
  | .num lex, h => noBq_mem h
  | .str s, h => by
    intro c hc
    have hc' : c = dquoteC ∨ c ∈ s ∨ c = dquoteC := by
      have : c ∈ dquoteC :: s ++ [dquoteC] := hc
      simpa using this
    rcases hc' with h1 | h1 | h1
    · subst h1; decide
    · exact noBq_mem h c h1
    · subst h1; decide
  | .arr es, h => by
    intro c hc
    have hc' : c = lbrackC ∨ c ∈ serElems es ∨ c = rbrackC := by
      have : c ∈ lbrackC :: serElems es ++ [rbrackC] := hc
      simpa using this
    rcases hc' with h1 | h1 | h1
    · subst h1; decide
    · exact serElems_no_bq es h c h1
    · subst h1; decide
  | .obj ms, h => by
    intro c hc
    have hc' : c = lbraceC ∨ c ∈ serMembers ms ∨ c = rbraceC := by
      have : c ∈ lbraceC :: serMembers ms ++ [rbraceC] := hc
      simpa using this
    rcases hc' with h1 | h1 | h1
    · subst h1; decide
    · exact serMembers_no_bq ms h c h1
    · subst h1; decide

theorem serElems_no_bq : ∀ (es : List JsonVal), noBTElems es = true →
    ∀ c ∈ serElems es, ¬c = bqC
  | [], _ => by
    intro c hc
    exact absurd hc (by simp [serElems])
  | e :: es, h => by
    intro c hc
    obtain ⟨he, hes⟩ := noBTElems_parts h
    rw [serElems_cons_eq] at hc
    rcases List.mem_append.mp hc with h1 | h1
    · exact serV_no_bq e he c h1
    · cases es with
      | nil => exact absurd h1 (by simp [serElemsTail])
      | cons x xs =>
        have h2 : c = ',' ∨ c ∈ serElems (x :: xs) := by
          have : c ∈ ',' :: serElems (x :: xs) := h1
          simpa using this
        rcases h2 with h3 | h3
        · subst h3; decide
        · exact serElems_no_bq (x :: xs) hes c h3

theorem serMembers_no_bq : ∀ (ms : List (List Char × JsonVal)), noBTMembers ms = true →
    ∀ c ∈ serMembers ms, ¬c = bqC
  | [], _ => by
    intro c hc
    exact absurd hc (by simp [serMembers])
  | (k, v) :: ms, h => by
    intro c hc
    obtain ⟨hk, hv, hms⟩ := noBTMembers_parts h
    rw [serMembers_cons_eq] at hc
    have hc' : c = dquoteC ∨ c ∈ k ++ dquoteC :: ':' :: serV v ++ serMembersTail ms := by
      simpa using hc
    rcases hc' with h1 | h1
    · subst h1; decide
    · rcases List.mem_append.mp h1 with h2 | h2
      · rcases List.mem_append.mp h2 with h3 | h3
        · exact noBq_mem hk c h3
        · have h4 : c = dquoteC ∨ c = ':' ∨ c ∈ serV v := by
            simpa using h3
          rcases h4 with h5 | h5 | h5
          · subst h5; decide
          · subst h5; decide
          · exact serV_no_bq v hv c h5
      · cases ms with
        | nil => exact absurd h2 (by simp [serMembersTail])
        | cons m2 ms2 =>
          have h3 : c = ',' ∨ c ∈ serMembers (m2 :: ms2) := by
            have : c ∈ ',' :: serMembers (m2 :: ms2) := h2
            simpa using this
          rcases h3 with h4 | h4
          · subst h4; decide
          · exact serMembers_no_bq (m2 :: ms2) hms c h4

end

theorem fenceAfter_false_head {l : List Char} {c : Char} {t : List Char}
    (h : l.dropWhile isReWs = c :: t) (hc : ¬c = bqC) : fenceAfter l = false := by
  unfold fenceAfter
  rw [h]
  show litPre (bqC :: bqC :: bqC :: []) (c :: t) = false
  simp [litPre, hc]

theorem fenceAfter_through_nonbq (b tail : List Char) (hb : ∀ c ∈ b, ¬c = bqC) :
    fenceAfter (b ++ rbraceC :: tail) = false := by
  rcases hd : b.dropWhile isReWs with _ | ⟨c, t⟩
  · have hdr : (b ++ rbraceC :: tail).dropWhile isReWs = rbraceC :: tail := by
      rw [List.dropWhile_append, hd]
      simp [List.dropWhile_cons, (by decide : isReWs rbraceC = false)]
    exact fenceAfter_false_head hdr (by decide)
  · have hc : ¬c = bqC := hb c (mem_of_mem_dropWhileCh (hd ▸ List.mem_cons_self c t))
    have hdr : (b ++ rbraceC :: tail).dropWhile isReWs = c :: (t ++ rbraceC :: tail) := by
      rw [List.dropWhile_append, hd]
      simp
    exact fenceAfter_false_head hdr hc

theorem findClose_mid : ∀ (mid tail : List Char), (∀ c ∈ mid, ¬c = bqC) →
    fenceAfter tail = true →
    findClose (mid ++ rbraceC :: tail) = some (mid ++ [rbraceC])
  | [], tail, _, hf => by
    show findClose (rbraceC :: tail) = some [rbraceC]
    unfold findClose
    rw [if_pos rfl, if_pos hf]
  | c :: mid', tail, hnb, hf => by
    have hmid' : ∀ c' ∈ mid', ¬c' = bqC := fun c' h' => hnb c' (List.mem_cons_of_mem _ h')
    have ih := findClose_mid mid' tail hmid' hf
    show findClose (c :: (mid' ++ rbraceC :: tail)) = some (c :: (mid' ++ [rbraceC]))
    by_cases hc : c = rbraceC
    · subst hc
      have hfa := fenceAfter_through_nonbq mid' tail hmid'
      unfold findClose
      rw [if_pos rfl, hfa]
      rw [if_neg (by simp : ¬false = true), ih]
    · unfold findClose
      rw [if_neg hc, ih]

theorem ciMatch_refl (c : Char) : ciMatch c c = true := by
  simp [ciMatch]

theorem ciPre_self_append : ∀ (pat rest : List Char), ciPre pat (pat ++ rest) = true
  | [], _ => rfl
  | p :: pt, rest => by
    show ciPre (p :: pt) (p :: (pt ++ rest)) = true
    simp [ciPre, ciMatch_refl, ciPre_self_append pt rest]

theorem ciMatch_bq_false {c : Char} (hc : ¬c = bqC) : ciMatch c bqC = false := by
  have h96 : bqC.toNat = 96 := rfl
  simp only [ciMatch, Bool.or_eq_false_iff, Bool.and_eq_false_iff, decide_eq_false_iff_not]
  refine ⟨hc, ?_⟩
  by_cases hA : bqC.toNat = c.toNat + 32
  · left
    right
    omega
  · left
    left
    exact hA

theorem tier1At_nonbq_head {c : Char} {r : List Char} (hc : ¬c = bqC) :
    tier1At (c :: r) = none := by
  unfold tier1At
  rw [if_neg ?hn]
  case hn =>
    show ¬ciPre (bqC :: bqC :: bqC :: 'j' :: 's' :: 'o' :: 'n' :: []) (c :: r) = true
    simp [ciPre, ciMatch_bq_false hc]

theorem searchTier1_cons_found {c : Char} {r cap : List Char}
    (h : tier1At (c :: r) = some cap) : searchTier1 (c :: r) = some cap := by
  simp [searchTier1, h]

theorem searchTier1_prefix_nonbq : ∀ (p1 t : List Char), (∀ c ∈ p1, ¬c = bqC) →
    searchTier1 (p1 ++ t) = searchTier1 t
  | [], t, _ => by simp
  | c :: p1', t, h => by
    show searchTier1 (c :: (p1' ++ t)) = searchTier1 t
    simp only [searchTier1, tier1At_nonbq_head (h c (List.mem_cons_self _ _))]
    exact searchTier1_prefix_nonbq p1' t (fun c' h' => h c' (List.mem_cons_of_mem _ h'))

theorem tier1At_fence (ms : List (List Char × JsonVal)) (p2 : List Char)
    (hbt : noBTV (.obj ms) = true) :
    tier1At (fenceJsonL ++ '\n' :: (serV (.obj ms) ++ '\n' :: (fenceL ++ p2))) =
      some (serV (.obj ms)) := by
  unfold tier1At
  rw [if_pos (ciPre_self_append fenceJsonL _)]
  have hdrop : (fenceJsonL ++ '\n' :: (serV (.obj ms) ++ '\n' :: (fenceL ++ p2))).drop 7 =
      '\n' :: (serV (.obj ms) ++ '\n' :: (fenceL ++ p2)) := by
    rw [show 7 = fenceJsonL.length from rfl]
    exact List.drop_left _ _
  rw [hdrop]
  have hdw : ('\n' :: (serV (.obj ms) ++ '\n' :: (fenceL ++ p2))).dropWhile isReWs =
      serV (.obj ms) ++ '\n' :: (fenceL ++ p2) := by
    rw [List.dropWhile_cons, if_pos (by decide : isReWs '\n' = true)]
    rw [show serV (.obj ms) ++ '\n' :: (fenceL ++ p2) =
      lbraceC :: (serMembers ms ++ [rbraceC] ++ '\n' :: (fenceL ++ p2)) from by
        show (lbraceC :: serMembers ms ++ [rbraceC]) ++ _ = _
        simp]
    rw [List.dropWhile_cons, if_neg (by decide : ¬isReWs lbraceC = true)]
  rw [hdw]
  rw [show serV (.obj ms) ++ '\n' :: (fenceL ++ p2) =
    lbraceC :: (serMembers ms ++ [rbraceC] ++ '\n' :: (fenceL ++ p2)) from by
      show (lbraceC :: serMembers ms ++ [rbraceC]) ++ _ = _
      simp]
  show findClose (lbraceC :: (serMembers ms ++ [rbraceC] ++ '\n' :: (fenceL ++ p2))) =
    some (serV (.obj ms))
  have harg : lbraceC :: (serMembers ms ++ [rbraceC] ++ '\n' :: (fenceL ++ p2)) =
      (lbraceC :: serMembers ms) ++ rbraceC :: ('\n' :: (fenceL ++ p2)) := by
    simp
  rw [harg]
  have hfa : fenceAfter ('\n' :: (fenceL ++ p2)) = true := by
    unfold fenceAfter
    rw [List.dropWhile_cons, if_pos (by decide : isReWs '\n' = true)]
    rw [show (fenceL ++ p2).dropWhile isReWs = fenceL ++ p2 from by
      show (bqC :: ((bqC :: bqC :: []) ++ p2)).dropWhile isReWs = fenceL ++ p2
      rw [List.dropWhile_cons, if_neg (by decide : ¬isReWs bqC = true)]
      rfl]
    exact litPre_self_append fenceL p2
  have hnb : ∀ c ∈ lbraceC :: serMembers ms, ¬c = bqC := by
    intro c hc
    rcases List.mem_cons.mp hc with h1 | h1
    · subst h1; decide
    · exact serMembers_no_bq ms hbt c h1
  rw [findClose_mid _ _ hnb hfa]
  show some ((lbraceC :: serMembers ms) ++ [rbraceC]) = some (serV (.obj ms))
  congr 1

theorem searchTier1_head_found {t cap : List Char} (h : tier1At t = some cap)
    (hne : t ≠ []) : searchTier1 t = some cap := by
  cases t with
  | nil => exact absurd rfl hne
  | cons c r => simp [searchTier1, h]

/-! ### Claim C7 -/

/-- A JSON object whose single string value contains a closing brace
followed by three backticks. -/
def c7badJ : JsonVal := .obj [("a".toList, .str "\x7d\x60\x60\x60".toList)]

/-- C7: counterexample. `c7badJ` is a JSON object that `json.loads` parses
back from its own serialization, yet wrapping that serialization in a
fenced ```json block makes the tier-1 lazy capture stop at the `\x7d`
inside the string value (a closing fence follows it), so extraction
raises a decode error instead of recovering the object. -/
theorem c7_counterexample :
    jsonLoads (serV c7badJ) = some c7badJ ∧
    extract_json_from_text
      (fenceJsonL ++ '\n' :: (serV c7badJ ++ '\n' :: fenceL)) =
      .error .decodeError := ⟨rfl, rfl⟩

/-- C7 (amended): the round trip does hold for every well-formed JSON
object that contains no backtick anywhere in its keys, string values or
number lexemes, when the surrounding prose before the fence contains no
backtick: tier 1 captures exactly the serialized object and `json.loads`
recovers it. -/
theorem c7_amended_roundtrip (ms : List (List Char × JsonVal)) (p1 p2 : List Char)
    (hwf : wfV (.obj ms) = true) (hbt : noBTV (.obj ms) = true)
    (hp1 : ∀ c ∈ p1, ¬c = bqC) :
    extract_json_from_text
      (p1 ++ (fenceJsonL ++ '\n' :: (serV (.obj ms) ++ '\n' :: (fenceL ++ p2)))) =
      .ok (.obj ms) := by
  have h1 : searchTier1
      (p1 ++ (fenceJsonL ++ '\n' :: (serV (.obj ms) ++ '\n' :: (fenceL ++ p2)))) =
      some (serV (.obj ms)) := by
    rw [searchTier1_prefix_nonbq p1 _ hp1]
    exact searchTier1_head_found (tier1At_fence ms p2 hbt) (by simp [fenceJsonL])
  unfold extract_json_from_text
  rw [h1]
  show (match jsonLoads (serV (.obj ms)) with
    | some v => Except.ok v
    | none => Except.error ExtractErr.decodeError) = Except.ok (JsonVal.obj ms)
  rw [jsonLoads_ser _ hwf]

/-- C7: closed witness for the amended round trip. -/
theorem c7_witness :
    extract_json_from_text
      ("Intro ".toList ++ (fenceJsonL ++ '\n' ::
        (serV (.obj [("a".toList, .num ['1'])]) ++ '\n' ::
          (fenceL ++ " outro".toList)))) =
      .ok (.obj [("a".toList, .num ['1'])]) :=
  c7_amended_roundtrip [("a".toList, .num ['1'])] "Intro ".toList " outro".toList
    (by decide) (by decide) (by decide)

/-! ### Claim C5: create_archive_from_dir

`env name` models `shutil.which(name) is not None`; `rarRunOk` models the
exit status of the external `rar` invocation (`check=True` raises
`CalledProcessError` on a nonzero exit). Paths are plain strings;
`pyStem` models `pathlib`'s stem used by `with_suffix(".zip")`. -/

def tool_exists (env : List Char → Bool) (tool_name : List Char) : Bool :=
  env tool_name

def rar_available (env : List Char → Bool) : Bool :=
  tool_exists env "rar".toList || tool_exists env "Rar".toList ||
    tool_exists env "rar.exe".toList || tool_exists env "Rar.exe".toList

/-- Index of the last `.` in a name, if any. -/
def rfindDotIdx : List Char → Option Nat
  | [] => none
  | c :: r =>
    match rfindDotIdx r with
    | some i => some (i + 1)
    | none => if c = '.' then some 0 else none

/-- `pathlib` stem: the name with its suffix removed; a name has a suffix
only when its last dot sits strictly inside the name (not first, not
last character). -/
def pyStem (name : List Char) : List Char :=
  match rfindDotIdx name with
  | some i => if 0 < i ∧ i + 1 < name.length then name.take i else name
  | none => name

inductive ArchiveErr where
  | calledProcessError
deriving DecidableEq, Repr

def create_archive_from_dir (env : List Char → Bool) (rarRunOk : Bool)
    (parentDir out_name : List Char) : Except ArchiveErr (List Char) :=
  if rar_available env then
    if rarRunOk then .ok (parentDir ++ '/' :: (out_name ++ ".rar".toList))
    else .error .calledProcessError
  else
    .ok (parentDir ++ '/' :: (pyStem out_name ++ ".zip".toList))

/-- C5: when some casing variant of the rar binary is discoverable, the
function produces the `.rar`-suffixed path on success and fails with
`CalledProcessError` on a nonzero exit (no zip fallback); when none is
discoverable, it produces a `.zip`-suffixed path via the built-in
routine. -/
theorem c5_archive_choice (env : List Char → Bool) (rarRunOk : Bool)
    (parentDir out_name : List Char) :
    (rar_available env = true →
      (rarRunOk = true →
        create_archive_from_dir env rarRunOk parentDir out_name =
          .ok (parentDir ++ '/' :: (out_name ++ ".rar".toList))) ∧
      (rarRunOk = false →
        create_archive_from_dir env rarRunOk parentDir out_name =
          .error .calledProcessError)) ∧
    (rar_available env = false →
      create_archive_from_dir env rarRunOk parentDir out_name =
        .ok (parentDir ++ '/' :: (pyStem out_name ++ ".zip".toList))) := by
  refine ⟨fun ha => ⟨fun hr => ?_, fun hr => ?_⟩, fun ha => ?_⟩
  · simp [create_archive_from_dir, ha, hr]
  · simp [create_archive_from_dir, ha, hr]
  · simp [create_archive_from_dir, ha]

/-- C5: closed witness covering all three outcomes. -/
theorem c5_witness :
    create_archive_from_dir (fun _ => true) true "p".toList "n".toList =
      .ok ("p".toList ++ '/' :: ("n".toList ++ ".rar".toList)) ∧
    create_archive_from_dir (fun _ => true) false "p".toList "n".toList =
      .error .calledProcessError ∧
    create_archive_from_dir (fun _ => false) true "p".toList "n".toList =
      .ok ("p".toList ++ '/' :: (pyStem "n".toList ++ ".zip".toList)) :=
  ⟨((c5_archive_choice (fun _ => true) true "p".toList "n".toList).1 rfl).1 rfl,
   ((c5_archive_choice (fun _ => true) false "p".toList "n".toList).1 rfl).2 rfl,
   (c5_archive_choice (fun _ => false) true "p".toList "n".toList).2 rfl⟩

/-! ### Claim C8: generate_with_gemini

The model response is data: `text` is the optional `.text` attribute
(`none` for absent, `some []` for present-but-empty), `candidates` the
candidate list (an absent attribute and an empty list are both falsy in
`if getattr(response, "candidates", None):`, so both are `[]` here). A
candidate whose `content` attribute is missing makes
`getattr(cand, "content", []).parts` raise `AttributeError`. -/

structure GPart where
  text : Option (List Char)
deriving DecidableEq, Repr

structure GContent where
  parts : List GPart
deriving DecidableEq, Repr

structure GCandidate where
  content : Option GContent
deriving DecidableEq, Repr

structure GResponse where
  text : Option (List Char)
  candidates : List GCandidate
deriving DecidableEq, Repr

inductive GenErr where
  | noUsableText
  | attributeError
deriving DecidableEq, Repr

/-- Collect `part.text` over all candidates; `none` models the
`AttributeError` raised on a candidate with no `content`. -/
def collectTexts : List GCandidate → Option (List (List Char))
  | [] => some []
  | c :: rest =>
    match c.content with
    | none => none
    | some ct =>
      match collectTexts rest with
      | none => none
      | some ts => some (ct.parts.filterMap (fun p => p.text) ++ ts)

/-- `"\n".join(parts)`. -/
def joinNL : List (List Char) → List Char
  | [] => []
  | [t] => t
  | t :: ts => t ++ '\n' :: joinNL ts

def generate_with_gemini (r : GResponse) : Except GenErr (List Char) :=
  match r.text with
  | some (c :: t) => .ok (c :: t)
  | _ =>
    match r.candidates with
    | [] => .error .noUsableText
    | _ :: _ =>
      match collectTexts r.candidates with
      | none => .error .attributeError
      | some ts => .ok (pyStrip (joinNL ts))

/-- C8: counterexample. A response with no `.text` and one candidate
whose single part carries the empty string: the fallback joins and
strips to the empty string and returns it as a success, instead of
raising the no-usable-text error. -/
theorem c8_counterexample :
    generate_with_gemini ⟨none, [⟨some ⟨[⟨some []⟩]⟩⟩]⟩ = .ok [] := rfl

/-- C8 (amended): the no-usable-text error is raised exactly when the
`.text` attribute is absent or empty AND the candidate list is empty;
with any candidate present the joined-and-stripped part texts are
returned as a success even when that string is empty. -/
theorem c8_amended_failure_iff (r : GResponse) :
    generate_with_gemini r = .error .noUsableText ↔
      (∀ t, r.text = some t → t = []) ∧ r.candidates = [] := by
  obtain ⟨tx, cs⟩ := r
  cases tx with
  | none =>
    cases cs with
    | nil => simp [generate_with_gemini]
    | cons c cs' =>
      rcases hct : collectTexts (c :: cs') with _ | ts <;>
        simp [generate_with_gemini, hct]
  | some t =>
    cases t with
    | nil =>
      cases cs with
      | nil => simp [generate_with_gemini]
      | cons c cs' =>
        rcases hct : collectTexts (c :: cs') with _ | ts <;>
          simp [generate_with_gemini, hct]
    | cons c t' =>
      simp only [generate_with_gemini]
      constructor
      · intro h
        exact absurd h (by simp)
      · rintro ⟨h1, -⟩
        exact absurd (h1 (c :: t') rfl) (by simp)

/-! ### Claim C9: credential pre-flight

`env` models `os.environ.get`, `secrets` models `st.secrets.get` with
default `None`; `pyOrO` is Python `or` over optional strings (first
truthy operand, else the last operand); `truthyS` is Python truthiness
of the final value (`None` and `""` are falsy). After the check the
script either calls `st.stop()` or goes on to build the prompt and call
the model when the generate button is pressed. -/

def pyOrO : Option (List Char) → Option (List Char) → Option (List Char)
  | some (c :: t), _ => some (c :: t)
  | _, b => b

def truthyS : Option (List Char) → Bool
  | some (_ :: _) => true
  | _ => false

def get_api_key (env secrets : List Char → Option (List Char)) :
    Option (List Char) :=
  pyOrO (env "GEMINI_API_KEY".toList)
    (pyOrO (env "GOOGLE_API_KEY".toList)
      (pyOrO (secrets "GEMINI_API_KEY".toList) (secrets "GOOGLE_API_KEY".toList)))

structure ScriptTrace where
  stopped : Bool
  promptBuilt : Bool
  modelCalled : Bool
deriving DecidableEq, Repr

/-- The module-level flow: credential check, `st.stop()` on a falsy key,
otherwise prompt construction and the model call under the generate
button. -/
def script_preflight (env secrets : List Char → Option (List Char))
    (generate : Bool) : ScriptTrace :=
  if truthyS (get_api_key env secrets) then
    if generate then ⟨false, true, true⟩ else ⟨false, false, false⟩
  else ⟨true, false, false⟩

/-- C9: whenever `get_api_key` yields no truthy credential, the script
stops before building a prompt or calling the model, for every state of
the generate button. -/
theorem c9_preflight_stops (env secrets : List Char → Option (List Char))
    (generate : Bool) (h : truthyS (get_api_key env secrets) = false) :
    (script_preflight env secrets generate).stopped = true ∧
    (script_preflight env secrets generate).promptBuilt = false ∧
    (script_preflight env secrets generate).modelCalled = false := by
  simp [script_preflight, h]

/-- C9: closed witness — no environment variable and no secret set. -/
theorem c9_witness :
    truthyS (get_api_key (fun _ => none) (fun _ => none)) = false ∧
    (script_preflight (fun _ => none) (fun _ => none) true).promptBuilt = false ∧
    (script_preflight (fun _ => none) (fun _ => none) true).modelCalled = false :=
  ⟨rfl,
   (c9_preflight_stops (fun _ => none) (fun _ => none) true rfl).2.1,
   (c9_preflight_stops (fun _ => none) (fun _ => none) true rfl).2.2⟩

/-! ### Claim C3: temporary-directory cleanup in the generation block

The `if generate:` block in outcome form. `genOk` is the model call,
`extractOk` the manifest extraction, `writeOk` the materialization
(`mkdtemp` succeeds first, then `proj_dir.mkdir` /
`write_files_from_manifest` may raise), `packOk` the packaging step. In
the source, `tempfile.mkdtemp` and `write_files_from_manifest` run
BEFORE the inner `try`/`finally` that performs
`shutil.rmtree(tmp_root)`; only the packaging step is inside it. A
failure during materialization therefore jumps straight to the outer
`except`, skipping the cleanup. -/

structure GenTrace where
  tmpCreated : Bool
  tmpRemoved : Bool
  errorReported : Bool
  resultStored : Bool
deriving DecidableEq, Repr

def generation_block (genOk extractOk writeOk packOk : Bool) : GenTrace :=
  if !genOk then ⟨false, false, true, false⟩
  else if !extractOk then ⟨false, false, true, false⟩
  else if !writeOk then ⟨true, false, true, false⟩
  else if !packOk then ⟨true, true, true, false⟩
  else ⟨true, true, false, true⟩

/-- C3: the code leaves the temporary directory behind when
materialization fails — the run created it, reported the error, and
never removed it — although success and packaging-failure runs do remove
it. This contradicts the claim that every run reaching the creation of
the temporary directory deletes it on every exit path. -/
theorem c3_tmp_leak_on_write_failure :
    (generation_block true true false true).tmpCreated = true ∧
    (generation_block true true false true).tmpRemoved = false ∧
    (generation_block true true false true).errorReported = true ∧
    (generation_block true true true true).tmpRemoved = true ∧
    (generation_block true true true false).tmpRemoved = true :=
  ⟨rfl, rfl, rfl, rfl, rfl⟩
